import Mathlib

/-!
Verification of the inference engine of the smartphone-diagnosis expert system
(`src/inference_engine/`): the certainty-factor algebra, the forward-chaining
fixpoint evaluator, and the backward-chaining recursive prover.

Python floats are modelled as exact rationals (`ℚ`): every constant appearing
in the rules and the scenarios is an exact decimal, so rational arithmetic
agrees with the intended real-number semantics; the spec's 1e-9 tolerances are
subsumed by exact equality.  Python `set`s are modelled as `Finset String`,
dicts keeping insertion order as association lists, and the fallible division
in `combine_certainty_factors` (which can raise `ZeroDivisionError`) as an
`Option`-valued function returning `none` on a zero denominator.
-/

namespace SmartphoneES

/-! ## Certainty-factor algebra (`src/inference_engine/certainty_factor.py`) -/

/-- `CertaintyFactor.combine_sequential_cf` (certainty_factor.py lines 39-68):
both strictly positive → `cf1 + cf2*(1-cf1)`; both strictly negative →
`cf1 + cf2*(1+cf1)`; otherwise `(cf1+cf2)/denominator` with
`denominator = 1 - min |cf1| |cf2|` (local variable inlined), returning 0 when
that denominator is exactly 0. -/
def combine_sequential_cf (cf1 cf2 : ℚ) : ℚ :=
  if 0 < cf1 ∧ 0 < cf2 then
    cf1 + cf2 * (1 - cf1)
  else if cf1 < 0 ∧ cf2 < 0 then
    cf1 + cf2 * (1 + cf1)
  else
    if 1 - min |cf1| |cf2| = 0 then 0
    else (cf1 + cf2) / (1 - min |cf1| |cf2|)

/-- Module-level `combine_certainty_factors` (forward_chaining.py lines
346-363).  Unlike `combine_sequential_cf` it has no zero-denominator guard: a
zero denominator raises `ZeroDivisionError` in Python, modelled as `none`. -/
def combine_certainty_factors (cf1 cf2 : ℚ) : Option ℚ :=
  if 0 < cf1 ∧ 0 < cf2 then
    some (cf1 + cf2 * (1 - cf1))
  else if cf1 < 0 ∧ cf2 < 0 then
    some (cf1 + cf2 * (1 + cf1))
  else
    if 1 - min |cf1| |cf2| = 0 then none
    else some ((cf1 + cf2) / (1 - min |cf1| |cf2|))

/-- `CertaintyFactor.interpret_cf` (certainty_factor.py lines 107-130): takes
`|cf|` and buckets it against the thresholds 0.9, 0.7, 0.5, 0.3, 0.1. -/
def interpret_cf (cf : ℚ) : String × String :=
  if 0.9 ≤ |cf| then ("Sangat Yakin", "Diagnosis ini sangat mungkin benar")
  else if 0.7 ≤ |cf| then ("Yakin", "Diagnosis ini kemungkinan besar benar")
  else if 0.5 ≤ |cf| then ("Cukup Yakin", "Diagnosis ini cukup mungkin benar")
  else if 0.3 ≤ |cf| then ("Kurang Yakin", "Diagnosis ini mungkin benar")
  else if 0.1 ≤ |cf| then ("Tidak Yakin", "Diagnosis ini kurang mungkin benar")
  else ("Sangat Tidak Yakin", "Diagnosis ini sangat kecil kemungkinannya")

/-! ## Forward chaining (`src/inference_engine/forward_chaining.py`)

A rule is a JSON object with an `IF` list of condition facts, a `THEN`
conclusion fact and a `CF` value; the rule set is a Python dict from rule id
to rule, iterated in insertion order, modelled as an association list whose
keys are pairwise distinct.  Trace events carry no timestamp field: the
`datetime.now()` wall-clock string is outside the shallow embedding and no
claim depends on it. -/

structure Rule where
  conds : List String
  concl : String
  cf : ℚ
deriving DecidableEq

/-- Reasoning-trace events of the forward engine (`fact_added`, `rule_fired`;
descriptions and timestamps omitted). -/
inductive FCEvent where
  | factAdded (fact : String)
  | ruleFired (ruleId : String) (conds : List String) (concl : String) (cf : ℚ)
deriving DecidableEq

/-- Mutable state of a `ForwardChaining` engine: `working_memory`,
`inferred_facts`, `fired_rules`, `reasoning_trace`, `diagnosis_scores`
(a `defaultdict(float)`, modelled as a total function defaulting to 0). -/
structure FCState where
  workingMemory : Finset String
  inferredFacts : Finset String
  firedRules : List String
  reasoningTrace : List FCEvent
  diagnosisScores : String → ℚ

/-- Fresh engine state (`__init__` / `reset`). -/
def fcInit : FCState :=
  { workingMemory := ∅, inferredFacts := ∅, firedRules := [],
    reasoningTrace := [], diagnosisScores := fun _ => 0 }

/-- `ForwardChaining.add_facts` (lines 76-89). -/
def fc_add_facts (s : FCState) (facts : List String) : FCState :=
  facts.foldl
    (fun st f =>
      { st with workingMemory := insert f st.workingMemory,
                reasoningTrace := st.reasoningTrace ++ [FCEvent.factAdded f] })
    s

/-- `ForwardChaining.can_fire_rule` (lines 91-103): all `IF` conditions lie in
`working_memory ∪ inferred_facts`. -/
def can_fire_rule (s : FCState) (r : Rule) : Bool :=
  r.conds.all fun c => decide (c ∈ s.workingMemory ∪ s.inferredFacts)

/-- `ForwardChaining.fire_rule` (lines 105-140): refuses an already-fired rule
id (returning `None`), otherwise adds the conclusion to `inferred_facts`,
appends the rule id to `fired_rules`, accumulates
`diagnosis_scores[conclusion] += cf`, records the trace event, and returns the
conclusion. -/
def fire_rule (s : FCState) (rid : String) (r : Rule) : Option String × FCState :=
  if rid ∈ s.firedRules then (none, s)
  else
    (some r.concl,
      { s with
        inferredFacts := insert r.concl s.inferredFacts,
        firedRules := s.firedRules ++ [rid],
        diagnosisScores := fun c =>
          if c = r.concl then s.diagnosisScores c + r.cf else s.diagnosisScores c,
        reasoningTrace :=
          s.reasoningTrace ++ [FCEvent.ruleFired rid r.conds r.concl r.cf] })

/-- Python truthiness of `fire_rule`'s return value (`if conclusion:`):
`None` and the empty string are falsy. -/
def conclTruthy : Option String → Bool
  | some c => c != ""
  | none => false

/-- One rule of one pass of `forward_chain` (lines 159-169): skip already
fired rules, else fire when applicable and raise the `new_facts_added` flag if
the returned conclusion is truthy. -/
def fcStep (acc : Bool × FCState) (p : String × Rule) : Bool × FCState :=
  if p.1 ∈ acc.2.firedRules then acc
  else if can_fire_rule acc.2 p.2 then
    (acc.1 || conclTruthy (fire_rule acc.2 p.1 p.2).1, (fire_rule acc.2 p.1 p.2).2)
  else acc

/-- One full pass of `forward_chain` over the rule dict, starting with the
`new_facts_added` flag lowered. -/
def fcPass (rules : List (String × Rule)) (s : FCState) : Bool × FCState :=
  rules.foldl fcStep (false, s)

/-- `ForwardChaining.forward_chain` (lines 142-182): up to `max_iterations`
passes, stopping after the first pass that leaves the flag lowered; returns
the executed-pass count (`iteration`) and the final state, from which the
results dictionary (`inferred_facts`, `fired_rules`, `diagnosis_scores`,
`reasoning_trace`) is read off. -/
def forward_chain (rules : List (String × Rule)) : Nat → FCState → Nat × FCState
  | 0, s => (0, s)
  | n + 1, s =>
    match fcPass rules s with
    | (true, s') =>
      match forward_chain rules n s' with
      | (k, s'') => (k + 1, s'')
    | (false, s') => (1, s')

/-- Concrete acyclic rule set (edges a→b, a→c, b→c) used to exhibit a pass
that fires a rule whose conclusion is already inferred: with fact `a`, pass 1
fires R1 and R2 (inferring `b` and `c`), pass 2 fires R3 re-deriving `c`
(no new fact, but the `new_facts_added` flag is still raised), and only pass 3
is quiet. -/
def rulesDiamond : List (String × Rule) :=
  [("R3", { conds := ["b"], concl := "c", cf := 0.5 }),
   ("R1", { conds := ["a"], concl := "b", cf := 0.6 }),
   ("R2", { conds := ["a"], concl := "c", cf := 0.7 })]

/-- Concrete one-rule set whose consequent `c` is also a caller-supplied known
fact, used to exhibit working-memory / inferred-facts overlap. -/
def rulesKnownConcl : List (String × Rule) :=
  [("R1", { conds := ["a"], concl := "c", cf := 0.5 })]

/-- Rule R6 of the knowledge base, as fixed by Scenario A of the spec. -/
def ruleR6 : Rule :=
  { conds := ["touchscreen_tidak_respons", "layar_tampil_normal"],
    concl := "kerusakan_touchscreen_digitizer", cf := 0.88 }

/-- The known facts of Scenario A. -/
def scenarioAFacts : List String :=
  ["touchscreen_tidak_respons", "layar_tampil_normal", "tombol_fisik_berfungsi"]

/-! ## Backward chaining (`src/inference_engine/backward_chaining.py`)

The prover is recursive on the goal structure, bounded by the
`depth > max_depth` check; the Lean recursion is driven by a fuel argument
that strictly exceeds the depth budget at every call site, so the fuel-0
branch is unreachable.  The `question_callback` oracle is an
`Option (String → Bool)` (it is `None` until `set_question_callback`), and
`oracleLog` is a ghost field recording one entry per actual callback
invocation, so that "the oracle is invoked at most once" is observable. -/

/-- Reasoning-trace events of the backward engine (timestamps omitted). -/
inductive BCEvent where
  | factAdded (fact : String)
  | maxDepthReached (goal : String) (depth : Nat)
  | provedByFact (goal : String) (depth : Nat)
  | tryingRule (ruleId : String) (goal : String) (conds : List String) (depth : Nat)
  | provedByRule (ruleId : String) (goal : String) (cf : ℚ) (depth : Nat)
  | provedByUser (goal : String) (depth : Nat)
  | userQuestioned (question : String) (answer : Bool)

/-- Mutable state of a `BackwardChaining` engine: `working_memory`,
`asked_questions`, `proved_goals`, `failed_goals`, `reasoning_trace`, plus
the ghost `oracleLog`. -/
structure BCState where
  workingMemory : Finset String
  askedQuestions : Finset String
  provedGoals : Finset String
  failedGoals : Finset String
  reasoningTrace : List BCEvent
  oracleLog : List String

/-- Fresh engine state (`__init__` / `reset`). -/
def bcInitState : BCState :=
  { workingMemory := ∅, askedQuestions := ∅, provedGoals := ∅,
    failedGoals := ∅, reasoningTrace := [], oracleLog := [] }

/-- `BackwardChaining.add_facts` (lines 64-77). -/
def bc_add_facts (s : BCState) (facts : List String) : BCState :=
  facts.foldl
    (fun st f =>
      { st with workingMemory := insert f st.workingMemory,
                reasoningTrace := st.reasoningTrace ++ [BCEvent.factAdded f] })
    s

/-- A fresh backward-chaining session: new engine plus one `add_facts` call. -/
def bcInit (facts : List String) : BCState := bc_add_facts bcInitState facts

/-- `BackwardChaining._ask_user` (lines 187-212): refuse an already-asked
question, otherwise mark it asked and invoke the callback when one is set
(recording the `user_questioned` event); without a callback answer `False`. -/
def ask_user (oracle : Option (String → Bool)) (s : BCState) (q : String) :
    Bool × BCState :=
  if q ∈ s.askedQuestions then (false, s)
  else
    match oracle with
    | some f =>
      (f q,
        { s with askedQuestions := insert q s.askedQuestions,
                 reasoningTrace := s.reasoningTrace
                   ++ [BCEvent.userQuestioned q (f q)],
                 oracleLog := s.oracleLog ++ [q] })
    | none => (false, { s with askedQuestions := insert q s.askedQuestions })

/-- The antecedent loop of `prove_goal` (lines 166-169): prove every
condition at the next depth, stopping at the first failure; `pg` is the
recursive prover for the next depth. -/
def proveConds (pg : String → BCState → Bool × BCState) :
    List String → BCState → Bool × BCState
  | [], s => (true, s)
  | c :: cs, s =>
    match pg c s with
    | (true, s') => proveConds pg cs s'
    | (false, s') => (false, s')

/-- The matching-rules loop of `prove_goal` (lines 152-185): record a
`trying_rule` event, prove the antecedents, and succeed on the first rule
whose antecedents all prove (first-applicable-rule semantics); after
exhausting all rules, memoize the goal as failed. -/
def tryRules (pg : String → BCState → Bool × BCState) (goal : String)
    (depth : Nat) : List (String × Rule) → BCState → Bool × BCState
  | [], s => (false, { s with failedGoals := insert goal s.failedGoals })
  | (rid, r) :: rest, s =>
    match proveConds pg r.conds
        { s with reasoningTrace := s.reasoningTrace
          ++ [BCEvent.tryingRule rid goal r.conds depth] } with
    | (true, s') =>
      (true,
        { s' with provedGoals := insert goal s'.provedGoals,
                  reasoningTrace := s'.reasoningTrace
                    ++ [BCEvent.provedByRule rid goal r.cf depth] })
    | (false, s') => tryRules pg goal depth rest s'

/-- `BackwardChaining.prove_goal` (lines 95-185): depth guard (with trace
event), proved/failed memo caches, working-memory check, question fallback
when no rule concludes the goal (`find_rules_for_goal`, lines 79-93, inlined
as a filter on consequents), else the matching-rules loop. -/
def prove_goal (rules : List (String × Rule)) (oracle : Option (String → Bool))
    (maxDepth : Nat) : Nat → String → Nat → BCState → Bool × BCState
  | 0, _, _, s => (false, s)
  | fuel + 1, goal, depth, s =>
    if maxDepth < depth then
      (false, { s with reasoningTrace := s.reasoningTrace
        ++ [BCEvent.maxDepthReached goal depth] })
    else if goal ∈ s.provedGoals then (true, s)
    else if goal ∈ s.failedGoals then (false, s)
    else if goal ∈ s.workingMemory then
      (true, { s with provedGoals := insert goal s.provedGoals,
                      reasoningTrace := s.reasoningTrace
                        ++ [BCEvent.provedByFact goal depth] })
    else
      if (rules.filter fun p => p.2.concl == goal).isEmpty then
        match ask_user oracle s goal with
        | (true, s') =>
          (true, { s' with workingMemory := insert goal s'.workingMemory,
                           provedGoals := insert goal s'.provedGoals,
                           reasoningTrace := s'.reasoningTrace
                             ++ [BCEvent.provedByUser goal depth] })
        | (false, s') =>
          (false, { s' with failedGoals := insert goal s'.failedGoals })
      else
        tryRules (fun g st => prove_goal rules oracle maxDepth fuel g (depth + 1) st)
          goal depth (rules.filter fun p => p.2.concl == goal) s

/-- `prove_goal` at its default arguments `depth = 0`, `max_depth = 10`
(line 95); fuel 12 strictly exceeds the depth budget, so the fuel never runs
out before the `depth > max_depth` guard fires. -/
def proveGoalTop (rules : List (String × Rule)) (oracle : Option (String → Bool))
    (goal : String) (s : BCState) : Bool × BCState :=
  prove_goal rules oracle 10 12 goal 0 s

/-- `BackwardChaining._calculate_goal_confidence` (lines 249-267): fold `min`
over the CFs of the `goal_proved_by_rule` trace events for this goal,
starting from 1.0. -/
def calculate_goal_confidence (trace : List BCEvent) (goal : String) : ℚ :=
  trace.foldl
    (fun conf e =>
      match e with
      | BCEvent.provedByRule _ g cf _ => if g = goal then min conf cf else conf
      | _ => conf)
    1

/-- Claim-statement apparatus (not from the source): the CFs of the
`goal_proved_by_rule` events recorded for `goal`, in trace order — "the CFs
of all rules recorded in the reasoning trace as contributing to the goal's
proof". -/
def contribCfs (trace : List BCEvent) (goal : String) : List ℚ :=
  trace.filterMap fun e =>
    match e with
    | BCEvent.provedByRule _ g cf _ => if g = goal then some cf else none
    | _ => none

/-- Result dictionary of `backward_chain` (lines 224-247): ordered
proved/failed lists, the final trace, and the `questions_asked` snapshot
taken at entry (the Python code materializes `list(self.asked_questions)`
before the goal loop). -/
structure BCResult where
  provedList : List (String × ℚ)
  failedList : List String
  finalTrace : List BCEvent
  questionsAskedSnapshot : Finset String

/-- One goal of the `backward_chain` loop (lines 232-243): prove it with the
default depth settings and record either a proved entry, whose confidence is
computed from the trace at that moment, or a failed entry. -/
def bcChainStep (rules : List (String × Rule)) (oracle : Option (String → Bool))
    (acc : BCResult × BCState) (g : String) : BCResult × BCState :=
  match proveGoalTop rules oracle g acc.2 with
  | (true, st) =>
    ({ acc.1 with provedList := acc.1.provedList
        ++ [(g, calculate_goal_confidence st.reasoningTrace g)] }, st)
  | (false, st) =>
    ({ acc.1 with failedList := acc.1.failedList ++ [g] }, st)

/-- `BackwardChaining.backward_chain` (lines 214-247). -/
def backward_chain (rules : List (String × Rule))
    (oracle : Option (String → Bool)) (goals : List String) (s : BCState) :
    BCResult × BCState :=
  let out := goals.foldl (bcChainStep rules oracle)
    ({ provedList := [], failedList := [], finalTrace := [],
       questionsAskedSnapshot := s.askedQuestions }, s)
  ({ out.1 with finalTrace := out.2.reasoningTrace }, out.2)

/-- Concrete cyclic rule set (g depends on x, x depends on g, plus a direct
rule for g from the known fact y) on which `prove_goal` leaves `g` in both
`proved_goals` and `failed_goals`: the depth bound truncates the inner nested
attempt at `g`, an ancestor frame memoizes the propagated failure, and an
outer frame of `g` later succeeds through R2. -/
def rulesCyclic : List (String × Rule) :=
  [("R1", { conds := ["x"], concl := "g", cf := 0.9 }),
   ("R2", { conds := ["y"], concl := "g", cf := 0.8 }),
   ("R3", { conds := ["g"], concl := "x", cf := 0.7 })]

/-! ## Claim C1 -/

/-- C1: for all `cf1, cf2`, `combine_sequential_cf` returns
`cf1 + cf2*(1-cf1)` when both are ≥ 0, `cf1 + cf2*(1+cf1)` when both are < 0,
and `(cf1+cf2)/(1 - min |cf1| |cf2|)` when the signs differ and that
denominator is nonzero; in particular `combine_sequential_cf 0.8 0.6 = 0.92`
and `combine_sequential_cf 0.6 (-0.3) = 0.3/0.7` (exactly, hence within the
spec's 1e-9 tolerance). -/
theorem C1_combine_sequential_branches (cf1 cf2 : ℚ) :
    ((0 ≤ cf1 ∧ 0 ≤ cf2) → combine_sequential_cf cf1 cf2 = cf1 + cf2 * (1 - cf1)) ∧
    ((cf1 < 0 ∧ cf2 < 0) → combine_sequential_cf cf1 cf2 = cf1 + cf2 * (1 + cf1)) ∧
    ((cf1 * cf2 < 0 ∧ 1 - min |cf1| |cf2| ≠ 0) →
      combine_sequential_cf cf1 cf2 = (cf1 + cf2) / (1 - min |cf1| |cf2|)) ∧
    combine_sequential_cf 0.8 0.6 = 0.92 ∧
    combine_sequential_cf 0.6 (-0.3) = 0.3 / 0.7 := by
  refine ⟨?_, ?_, ?_, ?_, ?_⟩
  · rintro ⟨h1, h2⟩
    rcases eq_or_lt_of_le h1 with h1' | h1'
    · -- cf1 = 0: the code takes the mixed-sign branch, whose denominator is 1
      subst h1'
      have hmin : min |(0 : ℚ)| |cf2| = 0 := by
        rw [abs_zero]
        exact min_eq_left (abs_nonneg _)
      simp only [combine_sequential_cf, hmin]
      norm_num
    · rcases eq_or_lt_of_le h2 with h2' | h2'
      · -- cf2 = 0: again the mixed-sign branch with denominator 1
        subst h2'
        have hmin : min |cf1| |(0 : ℚ)| = 0 := by
          rw [abs_zero]
          exact min_eq_right (abs_nonneg _)
        have hA : ¬ (0 < cf1 ∧ (0 : ℚ) < 0) := by simp
        have hB : ¬ (cf1 < 0 ∧ (0 : ℚ) < 0) := by simp
        simp only [combine_sequential_cf, hmin]
        rw [if_neg hA, if_neg hB]
        norm_num
      · simp only [combine_sequential_cf]
        rw [if_pos ⟨h1', h2'⟩]
  · rintro ⟨h1, h2⟩
    have hA : ¬ (0 < cf1 ∧ 0 < cf2) := by rintro ⟨h, _⟩; linarith
    simp only [combine_sequential_cf]
    rw [if_neg hA, if_pos ⟨h1, h2⟩]
  · rintro ⟨hmix, hden⟩
    have hA : ¬ (0 < cf1 ∧ 0 < cf2) := by rintro ⟨a, b⟩; nlinarith
    have hB : ¬ (cf1 < 0 ∧ cf2 < 0) := by rintro ⟨a, b⟩; nlinarith
    simp only [combine_sequential_cf]
    rw [if_neg hA, if_neg hB, if_neg hden]
  · have h : (0 : ℚ) < 0.8 ∧ (0 : ℚ) < 0.6 := by norm_num
    simp only [combine_sequential_cf]
    rw [if_pos h]
    norm_num
  · have ha : |(0.6 : ℚ)| = 0.6 := abs_of_nonneg (by norm_num)
    have hb : |(-0.3 : ℚ)| = 0.3 := by
      rw [abs_of_nonpos (by norm_num)]
      norm_num
    have hA : ¬ ((0 : ℚ) < 0.6 ∧ (0 : ℚ) < -0.3) := by norm_num
    have hB : ¬ ((0.6 : ℚ) < 0 ∧ (-0.3 : ℚ) < 0) := by norm_num
    have hmin : min |(0.6 : ℚ)| |(-0.3 : ℚ)| = 0.3 := by
      rw [ha, hb]
      norm_num
    simp only [combine_sequential_cf, hmin]
    rw [if_neg hA, if_neg hB, if_neg (by norm_num : ¬ (1 - (0.3 : ℚ) = 0))]
    norm_num

/-- Witness for C1 at the concrete input of Scenario C. -/
theorem C1_combine_sequential_branches_witness :
    combine_sequential_cf 0.8 0.6 = 0.8 + 0.6 * (1 - 0.8) :=
  (C1_combine_sequential_branches 0.8 0.6).1 ⟨by norm_num, by norm_num⟩

/-! ## Claim C4 -/

/-- C4 counterexample: at `cf1 = 1`, `cf2 = -1` the signs differ and the
mixed-sign denominator is exactly 0, yet the module-level
`combine_certainty_factors` of forward_chaining.py does not return 0: it has
no guard and raises `ZeroDivisionError` (modelled as `none`).  The claim that
the zero-denominator convention holds for "both implementations" is false. -/
theorem C4_counterexample_unguarded_division :
    combine_certainty_factors 1 (-1) = none ∧
    combine_certainty_factors 1 (-1) ≠ some 0 := by
  have hmin : min |(1 : ℚ)| |(-1 : ℚ)| = 1 := by
    rw [abs_one, abs_neg, abs_one, min_self]
  have hnone : combine_certainty_factors 1 (-1) = none := by
    have hA : ¬ ((0 : ℚ) < 1 ∧ (0 : ℚ) < -1) := by norm_num
    have hB : ¬ ((1 : ℚ) < 0 ∧ (-1 : ℚ) < 0) := by norm_num
    simp only [combine_certainty_factors, hmin]
    rw [if_neg hA, if_neg hB, if_pos (by norm_num)]
  exact ⟨hnone, by rw [hnone]; simp⟩

/-- C4 (amended): for opposite-sign inputs with `min |cf1| |cf2| = 1` (zero
denominator), `CertaintyFactor.combine_sequential_cf` returns 0, but the
module-level `combine_certainty_factors` in forward_chaining.py performs the
division unguarded and raises `ZeroDivisionError` (modelled as `none`). -/
theorem C4_zero_denominator_behaviour (cf1 cf2 : ℚ)
    (hmix : cf1 * cf2 < 0) (hmin : min |cf1| |cf2| = 1) :
    combine_sequential_cf cf1 cf2 = 0 ∧
    combine_certainty_factors cf1 cf2 = none := by
  have hA : ¬ (0 < cf1 ∧ 0 < cf2) := by rintro ⟨a, b⟩; nlinarith
  have hB : ¬ (cf1 < 0 ∧ cf2 < 0) := by rintro ⟨a, b⟩; nlinarith
  have hden : 1 - min |cf1| |cf2| = 0 := by rw [hmin]; ring
  constructor
  · simp only [combine_sequential_cf]
    rw [if_neg hA, if_neg hB, if_pos hden]
  · simp only [combine_certainty_factors]
    rw [if_neg hA, if_neg hB, if_pos hden]

/-- Witness for C4's amended theorem at `(1, -1)`. -/
theorem C4_zero_denominator_behaviour_witness :
    combine_sequential_cf 1 (-1) = 0 ∧ combine_certainty_factors 1 (-1) = none :=
  C4_zero_denominator_behaviour 1 (-1) (by norm_num)
    (by rw [abs_one, abs_neg, abs_one, min_self])

/-! ## Claim C7 -/

/-- C7 counterexample: the five thresholds 0.9, 0.7, 0.5, 0.3, 0.1 bucket
`|cf|` into SIX pairwise distinct labelled categories, not five: the six
sample inputs 0.95, 0.8, 0.6, 0.4, 0.2, 0 produce six different outputs. -/
theorem C7_counterexample_six_categories :
    ([interpret_cf 0.95, interpret_cf 0.8, interpret_cf 0.6,
      interpret_cf 0.4, interpret_cf 0.2, interpret_cf 0]).Nodup := by
  have a1 : |(0.95 : ℚ)| = 0.95 := abs_of_nonneg (by norm_num)
  have a2 : |(0.8 : ℚ)| = 0.8 := abs_of_nonneg (by norm_num)
  have a3 : |(0.6 : ℚ)| = 0.6 := abs_of_nonneg (by norm_num)
  have a4 : |(0.4 : ℚ)| = 0.4 := abs_of_nonneg (by norm_num)
  have a5 : |(0.2 : ℚ)| = 0.2 := abs_of_nonneg (by norm_num)
  have e1 : interpret_cf 0.95 =
      ("Sangat Yakin", "Diagnosis ini sangat mungkin benar") := by
    simp only [interpret_cf]
    rw [a1]
    norm_num
  have e2 : interpret_cf 0.8 =
      ("Yakin", "Diagnosis ini kemungkinan besar benar") := by
    simp only [interpret_cf]
    rw [a2]
    norm_num
  have e3 : interpret_cf 0.6 =
      ("Cukup Yakin", "Diagnosis ini cukup mungkin benar") := by
    simp only [interpret_cf]
    rw [a3]
    norm_num
  have e4 : interpret_cf 0.4 =
      ("Kurang Yakin", "Diagnosis ini mungkin benar") := by
    simp only [interpret_cf]
    rw [a4]
    norm_num
  have e5 : interpret_cf 0.2 =
      ("Tidak Yakin", "Diagnosis ini kurang mungkin benar") := by
    simp only [interpret_cf]
    rw [a5]
    norm_num
  have e6 : interpret_cf 0 =
      ("Sangat Tidak Yakin", "Diagnosis ini sangat kecil kemungkinannya") := by
    simp only [interpret_cf, abs_zero]
    norm_num
  rw [e1, e2, e3, e4, e5, e6]
  decide

/-- C7 (amended): `interpret_cf` depends only on `|cf|` (so it is symmetric
under negation) and buckets `|cf|` against the thresholds
0.9, 0.7, 0.5, 0.3, 0.1 into SIX descending categories, each with a fixed
natural-language label. -/
theorem C7_interpret_buckets (cf : ℚ) :
    interpret_cf cf = interpret_cf (-cf) ∧
    (0.9 ≤ |cf| → (interpret_cf cf).1 = "Sangat Yakin") ∧
    (0.7 ≤ |cf| ∧ |cf| < 0.9 → (interpret_cf cf).1 = "Yakin") ∧
    (0.5 ≤ |cf| ∧ |cf| < 0.7 → (interpret_cf cf).1 = "Cukup Yakin") ∧
    (0.3 ≤ |cf| ∧ |cf| < 0.5 → (interpret_cf cf).1 = "Kurang Yakin") ∧
    (0.1 ≤ |cf| ∧ |cf| < 0.3 → (interpret_cf cf).1 = "Tidak Yakin") ∧
    (|cf| < 0.1 → (interpret_cf cf).1 = "Sangat Tidak Yakin") := by
  refine ⟨by simp [interpret_cf, abs_neg], ?_, ?_, ?_, ?_, ?_, ?_⟩
  · intro h
    simp [interpret_cf, h]
  · rintro ⟨h1, h2⟩
    simp [interpret_cf, h1, not_le.mpr h2]
  · rintro ⟨h1, h2⟩
    have h3 : ¬ (0.9 : ℚ) ≤ |cf| := by linarith
    simp [interpret_cf, h1, not_le.mpr h2, h3]
  · rintro ⟨h1, h2⟩
    have h3 : ¬ (0.9 : ℚ) ≤ |cf| := by linarith
    have h4 : ¬ (0.7 : ℚ) ≤ |cf| := by linarith
    simp [interpret_cf, h1, not_le.mpr h2, h3, h4]
  · rintro ⟨h1, h2⟩
    have h3 : ¬ (0.9 : ℚ) ≤ |cf| := by linarith
    have h4 : ¬ (0.7 : ℚ) ≤ |cf| := by linarith
    have h5 : ¬ (0.5 : ℚ) ≤ |cf| := by linarith
    simp [interpret_cf, h1, not_le.mpr h2, h3, h4, h5]
  · intro h
    have h3 : ¬ (0.9 : ℚ) ≤ |cf| := by linarith
    have h4 : ¬ (0.7 : ℚ) ≤ |cf| := by linarith
    have h5 : ¬ (0.5 : ℚ) ≤ |cf| := by linarith
    have h6 : ¬ (0.3 : ℚ) ≤ |cf| := by linarith
    simp [interpret_cf, not_le.mpr h, h3, h4, h5, h6]

/-- Witness for C7's amended theorem at `cf = -0.95`. -/
theorem C7_interpret_buckets_witness :
    (interpret_cf (-0.95)).1 = "Sangat Yakin" :=
  (C7_interpret_buckets (-0.95)).2.1
    (by rw [abs_of_nonpos (by norm_num : (-0.95 : ℚ) ≤ 0)]; norm_num)

/-! ## Forward-chaining invariants -/

theorem fire_rule_workingMemory (s : FCState) (rid : String) (r : Rule) :
    (fire_rule s rid r).2.workingMemory = s.workingMemory := by
  unfold fire_rule
  split <;> rfl

theorem fcStep_workingMemory (acc : Bool × FCState) (p : String × Rule) :
    (fcStep acc p).2.workingMemory = acc.2.workingMemory := by
  unfold fcStep
  split
  · rfl
  · split
    · exact fire_rule_workingMemory acc.2 p.1 p.2
    · rfl

theorem fcFold_workingMemory (l : List (String × Rule)) :
    ∀ acc : Bool × FCState,
      (List.foldl fcStep acc l).2.workingMemory = acc.2.workingMemory := by
  induction l with
  | nil => intro acc; rfl
  | cons p l ih =>
    intro acc
    rw [List.foldl_cons, ih, fcStep_workingMemory]

theorem fcPass_workingMemory (rules : List (String × Rule)) (s : FCState) :
    (fcPass rules s).2.workingMemory = s.workingMemory :=
  fcFold_workingMemory rules (false, s)

theorem forward_chain_workingMemory (rules : List (String × Rule)) :
    ∀ (n : Nat) (s : FCState),
      (forward_chain rules n s).2.workingMemory = s.workingMemory := by
  intro n
  induction n with
  | zero => intro s; rfl
  | succ n ih =>
    intro s
    have hwm := fcPass_workingMemory rules s
    unfold forward_chain
    rcases h : fcPass rules s with ⟨flag, s'⟩
    rw [h] at hwm
    cases flag
    · simpa using hwm
    · rcases h2 : forward_chain rules n s' with ⟨k, s''⟩
      have := ih s'
      rw [h2] at this
      simpa [h2] using this.trans hwm

theorem fc_add_facts_workingMemory (facts : List String) :
    ∀ s : FCState,
      (fc_add_facts s facts).workingMemory = s.workingMemory ∪ facts.toFinset := by
  unfold fc_add_facts
  induction facts with
  | nil => intro s; simp
  | cons f fs ih =>
    intro s
    rw [List.foldl_cons, ih]
    simp [List.toFinset_cons, Finset.insert_union, Finset.union_insert]

theorem fc_add_facts_rest (facts : List String) :
    ∀ s : FCState,
      (fc_add_facts s facts).inferredFacts = s.inferredFacts ∧
      (fc_add_facts s facts).firedRules = s.firedRules ∧
      (fc_add_facts s facts).diagnosisScores = s.diagnosisScores := by
  unfold fc_add_facts
  induction facts with
  | nil => intro s; exact ⟨rfl, rfl, rfl⟩
  | cons f fs ih =>
    intro s
    rw [List.foldl_cons]
    exact ih _

/-! ## Claim C10 -/

/-- C10: running the forward-chaining evaluator never modifies the known-fact
working memory: after any sequence of `add_facts` calls on a fresh engine
followed by `forward_chain` with any rule set and any `max_iterations`, the
working memory equals exactly the union of the fact lists passed to
`add_facts` (and `forward_chain` leaves any state's working memory
untouched). -/
theorem C10_forward_chain_preserves_working_memory
    (factLists : List (List String)) (rules : List (String × Rule)) (n : Nat) :
    (forward_chain rules n (List.foldl fc_add_facts fcInit factLists)).2.workingMemory
      = (List.foldl fc_add_facts fcInit factLists).workingMemory ∧
    (List.foldl fc_add_facts fcInit factLists).workingMemory
      = factLists.flatten.toFinset := by
  constructor
  · exact forward_chain_workingMemory rules n _
  · have key : ∀ (ls : List (List String)) (s : FCState),
        (List.foldl fc_add_facts s ls).workingMemory
          = s.workingMemory ∪ ls.flatten.toFinset := by
      intro ls
      induction ls with
      | nil => intro s; simp
      | cons l ls ih =>
        intro s
        rw [List.foldl_cons, ih, fc_add_facts_workingMemory,
          List.flatten_cons, List.toFinset_append, Finset.union_assoc]
    rw [key factLists fcInit]
    simp [fcInit]

/-! ## Claim C8 -/

theorem fire_rule_inferred (s : FCState) (rid : String) (r : Rule) :
    (fire_rule s rid r).2.inferredFacts = s.inferredFacts ∨
    (fire_rule s rid r).2.inferredFacts = insert r.concl s.inferredFacts := by
  unfold fire_rule
  split
  · exact Or.inl rfl
  · exact Or.inr rfl

theorem fcStep_inferred_subset (P : String → Prop) (acc : Bool × FCState)
    (p : String × Rule) (hacc : ∀ x ∈ acc.2.inferredFacts, P x)
    (hp : P p.2.concl) :
    ∀ x ∈ (fcStep acc p).2.inferredFacts, P x := by
  unfold fcStep
  split
  · exact hacc
  · split
    · intro x hx
      have hx' : x ∈ (fire_rule acc.2 p.1 p.2).2.inferredFacts := hx
      rcases fire_rule_inferred acc.2 p.1 p.2 with h | h
      · rw [h] at hx'
        exact hacc x hx'
      · rw [h] at hx'
        rcases Finset.mem_insert.mp hx' with rfl | hx''
        · exact hp
        · exact hacc x hx''
    · exact hacc

theorem fcFold_inferred_subset (P : String → Prop) (l : List (String × Rule)) :
    ∀ acc : Bool × FCState, (∀ x ∈ acc.2.inferredFacts, P x) →
      (∀ p ∈ l, P p.2.concl) →
      ∀ x ∈ (List.foldl fcStep acc l).2.inferredFacts, P x := by
  induction l with
  | nil => intro acc hacc _; exact hacc
  | cons p l ih =>
    intro acc hacc hl
    rw [List.foldl_cons]
    exact ih _ (fcStep_inferred_subset P acc p hacc (hl p (List.mem_cons_self p l)))
      (fun q hq => hl q (List.mem_cons_of_mem p hq))

theorem forward_chain_inferred_subset (P : String → Prop)
    (rules : List (String × Rule)) (hr : ∀ p ∈ rules, P p.2.concl) :
    ∀ (n : Nat) (s : FCState), (∀ x ∈ s.inferredFacts, P x) →
      ∀ x ∈ (forward_chain rules n s).2.inferredFacts, P x := by
  intro n
  induction n with
  | zero => intro s hs; exact hs
  | succ n ih =>
    intro s hs
    have hpass : ∀ x ∈ (fcPass rules s).2.inferredFacts, P x :=
      fcFold_inferred_subset P rules (false, s) hs hr
    unfold forward_chain
    rcases h : fcPass rules s with ⟨flag, s'⟩
    rw [h] at hpass
    cases flag
    · simpa using hpass
    · rcases h2 : forward_chain rules n s' with ⟨k, s''⟩
      have := ih s' hpass
      rw [h2] at this
      simpa [h2] using this

/-- C8 counterexample: with known facts `{a, c}` and the single rule
`R1 : IF [a] THEN c`, the forward chain fires R1 and adds `c` to the
inferred-fact set even though `c` is already a known fact, so the known-fact
set and the inferred-fact set are NOT disjoint. -/
theorem C8_counterexample_consequent_already_known :
    "c" ∈ (forward_chain rulesKnownConcl 50 (fc_add_facts fcInit ["a", "c"])).2.workingMemory ∧
    "c" ∈ (forward_chain rulesKnownConcl 50 (fc_add_facts fcInit ["a", "c"])).2.inferredFacts := by
  constructor <;> decide

/-- C8 (amended): the known-fact working memory and the inferred-fact set
stay disjoint throughout a forward-chaining session PROVIDED no rule's
consequent is among the caller-supplied known facts; when a fired rule's
consequent is already a known fact, `fire_rule` adds it to `inferred_facts`
unconditionally and the two sets intersect. -/
theorem C8_disjoint_without_known_consequents (rules : List (String × Rule))
    (facts : List String) (n : Nat)
    (h : ∀ p ∈ rules, p.2.concl ∉ facts) :
    Disjoint (forward_chain rules n (fc_add_facts fcInit facts)).2.workingMemory
      (forward_chain rules n (fc_add_facts fcInit facts)).2.inferredFacts := by
  rw [Finset.disjoint_left]
  intro x hx hx'
  have hwm : (forward_chain rules n (fc_add_facts fcInit facts)).2.workingMemory
      = facts.toFinset := by
    rw [forward_chain_workingMemory, fc_add_facts_workingMemory]
    simp [fcInit]
  have hxf : x ∈ facts := by
    rw [hwm] at hx
    exact List.mem_toFinset.mp hx
  have hinit : ∀ y ∈ (fc_add_facts fcInit facts).inferredFacts, y ∉ facts := by
    rw [(fc_add_facts_rest facts fcInit).1]
    intro y hy
    simp [fcInit] at hy
  exact forward_chain_inferred_subset (fun y => y ∉ facts) rules h n _ hinit x hx' hxf

/-- Witness for C8's amended theorem: one rule `IF [a] THEN c` with known
facts `{a}` only. -/
theorem C8_disjoint_without_known_consequents_witness :
    Disjoint (forward_chain rulesKnownConcl 50 (fc_add_facts fcInit ["a"])).2.workingMemory
      (forward_chain rulesKnownConcl 50 (fc_add_facts fcInit ["a"])).2.inferredFacts :=
  C8_disjoint_without_known_consequents rulesKnownConcl ["a"] 50 (by decide)

/-! ## Claim C5 -/

theorem fcStep_cases (acc : Bool × FCState) (p : String × Rule) :
    fcStep acc p = acc ∨
    (p.1 ∉ acc.2.firedRules ∧
      (fcStep acc p).1 = (acc.1 || (p.2.concl != "")) ∧
      (fcStep acc p).2.firedRules = acc.2.firedRules ++ [p.1] ∧
      (fcStep acc p).2.workingMemory = acc.2.workingMemory ∧
      (fcStep acc p).2.inferredFacts = insert p.2.concl acc.2.inferredFacts ∧
      (∀ x : String, (fcStep acc p).2.diagnosisScores x =
        if x = p.2.concl then acc.2.diagnosisScores x + p.2.cf
        else acc.2.diagnosisScores x)) := by
  unfold fcStep
  split
  · exact Or.inl rfl
  · rename_i hmem
    split
    · right
      refine ⟨hmem, ?_, ?_, ?_, ?_, ?_⟩ <;> simp [fire_rule, hmem, conclTruthy]
    · exact Or.inl rfl

theorem fcFold_fired (l : List (String × Rule)) :
    ∀ acc : Bool × FCState, ∃ ext : List String,
      (List.foldl fcStep acc l).2.firedRules = acc.2.firedRules ++ ext ∧
      (∀ id ∈ ext, id ∈ l.map Prod.fst) ∧
      (∀ id ∈ ext, id ∉ acc.2.firedRules) ∧
      ext.Nodup ∧
      ((List.foldl fcStep acc l).1 = true → acc.1 = true ∨ ext ≠ []) := by
  induction l with
  | nil =>
    intro acc
    exact ⟨[], by simp, by simp, by simp, List.nodup_nil, fun h => Or.inl h⟩
  | cons p l ih =>
    intro acc
    rw [List.foldl_cons]
    rcases fcStep_cases acc p with h | ⟨hmem, _, hfired, _, _, _⟩
    · rw [h]
      rcases ih acc with ⟨ext, h1, h2, h3, h4, h5⟩
      exact ⟨ext, h1, fun id hid => List.mem_cons_of_mem _ (h2 id hid), h3, h4, h5⟩
    · rcases ih (fcStep acc p) with ⟨ext, h1, h2, h3, h4, h5⟩
      refine ⟨p.1 :: ext, ?_, ?_, ?_, ?_, ?_⟩
      · rw [h1, hfired, List.append_assoc]
        rfl
      · intro id hid
        rcases List.mem_cons.mp hid with rfl | hid
        · simp
        · exact List.mem_cons_of_mem _ (h2 id hid)
      · intro id hid
        rcases List.mem_cons.mp hid with rfl | hid
        · exact hmem
        · have hni := h3 id hid
          rw [hfired] at hni
          intro hid'
          exact hni (List.mem_append_left _ hid')
      · rw [List.nodup_cons]
        constructor
        · intro hp1
          have hni := h3 p.1 hp1
          rw [hfired] at hni
          exact hni (List.mem_append_right _ (by simp))
        · exact h4
      · intro _
        right
        simp

theorem fcPass_fired (rules : List (String × Rule)) (s : FCState) :
    ∃ ext : List String,
      (fcPass rules s).2.firedRules = s.firedRules ++ ext ∧
      (∀ id ∈ ext, id ∈ rules.map Prod.fst) ∧
      (∀ id ∈ ext, id ∉ s.firedRules) ∧
      ext.Nodup ∧
      ((fcPass rules s).1 = true → ext ≠ []) := by
  rcases fcFold_fired rules (false, s) with ⟨ext, h1, h2, h3, h4, h5⟩
  exact ⟨ext, h1, h2, h3, h4, fun h => (h5 h).resolve_left (by simp)⟩

theorem forward_chain_succ (rules : List (String × Rule)) (n : Nat) (s : FCState) :
    forward_chain rules (n + 1) s =
      if (fcPass rules s).1 = true then
        ((forward_chain rules n (fcPass rules s).2).1 + 1,
         (forward_chain rules n (fcPass rules s).2).2)
      else (1, (fcPass rules s).2) := by
  conv_lhs => unfold forward_chain
  rcases h : fcPass rules s with ⟨flag, s'⟩
  cases flag
  · simp
  · rcases h2 : forward_chain rules n s' with ⟨k, s''⟩
    simp [h2]

theorem forward_chain_le (rules : List (String × Rule)) :
    ∀ (n : Nat) (s : FCState), (forward_chain rules n s).1 ≤ n := by
  intro n
  induction n with
  | zero => intro s; exact Nat.le_refl 0
  | succ n ih =>
    intro s
    rw [forward_chain_succ]
    split
    · exact Nat.succ_le_succ (ih _)
    · exact Nat.succ_le_succ (Nat.zero_le n)

theorem forward_chain_quiet_pass (rules : List (String × Rule)) (s : FCState)
    (h : (fcPass rules s).1 = false) (n : Nat) :
    forward_chain rules (n + 1) s = (1, (fcPass rules s).2) := by
  rw [forward_chain_succ]
  simp [h]

theorem fired_length_le (rules : List (String × Rule)) (fired : List String)
    (hnd : fired.Nodup) (hsub : ∀ id ∈ fired, id ∈ rules.map Prod.fst) :
    fired.length ≤ rules.length := by
  have h1 : fired.toFinset.card = fired.length := List.toFinset_card_of_nodup hnd
  have h2 : fired.toFinset ⊆ (rules.map Prod.fst).toFinset := by
    intro x hx
    exact List.mem_toFinset.mpr (hsub x (List.mem_toFinset.mp hx))
  have h3 := Finset.card_le_card h2
  have h4 := List.toFinset_card_le (rules.map Prod.fst)
  rw [List.length_map] at h4
  omega

theorem forward_chain_count_bound (rules : List (String × Rule)) :
    ∀ (n : Nat) (s : FCState), s.firedRules.Nodup →
      (∀ id ∈ s.firedRules, id ∈ rules.map Prod.fst) →
      (forward_chain rules n s).1 ≤ rules.length + 1 - s.firedRules.length := by
  intro n
  induction n with
  | zero => intro s _ _; exact Nat.zero_le _
  | succ n ih =>
    intro s hnd hsub
    have hlen : s.firedRules.length ≤ rules.length := fired_length_le rules _ hnd hsub
    rcases fcPass_fired rules s with ⟨ext, h1, h2, h3, h4, h5⟩
    rw [forward_chain_succ]
    split
    · rename_i hflag
      have hne : ext ≠ [] := h5 hflag
      have hnd' : (fcPass rules s).2.firedRules.Nodup := by
        rw [h1]
        exact hnd.append h4 (List.disjoint_left.mpr fun a ha ha' => h3 a ha' ha)
      have hsub' : ∀ id ∈ (fcPass rules s).2.firedRules, id ∈ rules.map Prod.fst := by
        rw [h1]
        intro id hid
        rcases List.mem_append.mp hid with hh | hh
        · exact hsub id hh
        · exact h2 id hh
      have hgrow : s.firedRules.length < (fcPass rules s).2.firedRules.length := by
        rw [h1, List.length_append]
        have := List.length_pos.mpr hne
        omega
      have hlen' : (fcPass rules s).2.firedRules.length ≤ rules.length :=
        fired_length_le rules _ hnd' hsub'
      have hrec := ih (fcPass rules s).2 hnd' hsub'
      show (forward_chain rules n (fcPass rules s).2).1 + 1
        ≤ rules.length + 1 - s.firedRules.length
      omega
    · show 1 ≤ rules.length + 1 - s.firedRules.length
      omega

/-- C5 counterexample: on the acyclic rule set `rulesDiamond` (a→b, a→c, b→c)
with known fact `a` and `max_iterations = 3`, the second pass adds no new
fact (the inferred set is unchanged: R3 re-derives the already inferred `c`),
yet the run does NOT end there: it executes a third pass and returns
iteration count 3 = `max_iterations`, refuting both "a full pass that adds no
new fact always ends the run" and "the fixpoint (reached set-wise at pass 1)
is attained strictly before exhausting maxIterations". -/
theorem C5_counterexample_refired_conclusion :
    (fcPass rulesDiamond (fcPass rulesDiamond (fc_add_facts fcInit ["a"])).2).2.inferredFacts
      = (fcPass rulesDiamond (fc_add_facts fcInit ["a"])).2.inferredFacts ∧
    (forward_chain rulesDiamond 3 (fc_add_facts fcInit ["a"])).1 = 3 := by
  constructor <;> decide

/-- C5 (amended): forward chaining always terminates within `maxIterations`
passes (the returned count never exceeds it); a full pass that leaves the
`new_facts_added` flag lowered — in particular one that fires no rule —
always ends the run immediately; and since every continuing pass fires at
least one not-yet-fired rule, a run started with no fired rules ends with an
iteration count of at most `numRules + 1`, hence strictly less than
`maxIterations` whenever `maxIterations > numRules + 1` (so any fixpoint is
reached before exhaustion).  The stronger original clause fails because a
pass may fire a rule whose conclusion was already inferred: it adds no new
fact but still raises the flag. -/
theorem C5_termination_bounds (rules : List (String × Rule)) (n : Nat) (s : FCState) :
    (forward_chain rules n s).1 ≤ n ∧
    ((fcPass rules s).1 = false → ∀ m : Nat,
      forward_chain rules (m + 1) s = (1, (fcPass rules s).2)) ∧
    (s.firedRules = [] → rules.length + 1 < n → (forward_chain rules n s).1 < n) := by
  refine ⟨forward_chain_le rules n s, ?_, ?_⟩
  · intro h m
    exact forward_chain_quiet_pass rules s h m
  · intro hfired hn
    have hb := forward_chain_count_bound rules n s
      (by rw [hfired]; exact List.nodup_nil)
      (by rw [hfired]; intro id hid; simp at hid)
    rw [hfired] at hb
    simp at hb
    omega

/-- Witness for C5's amended theorem: the quiet-pass clause on the empty rule
set, and the strict bound on the three-rule diamond with `maxIterations = 6`. -/
theorem C5_termination_bounds_witness :
    forward_chain ([] : List (String × Rule)) 1 fcInit
      = (1, (fcPass [] fcInit).2) ∧
    (forward_chain rulesDiamond 6 (fc_add_facts fcInit ["a"])).1 < 6 :=
  ⟨(C5_termination_bounds [] 1 fcInit).2.1 rfl 0,
   (C5_termination_bounds rulesDiamond 6 (fc_add_facts fcInit ["a"])).2.2
     (by decide) (by decide)⟩

/-! ## Claim C2 -/

theorem assoc_key_unique {β : Type} :
    ∀ (l : List (String × β)), (l.map Prod.fst).Nodup →
      ∀ {k : String} {b b' : β}, (k, b) ∈ l → (k, b') ∈ l → b = b' := by
  intro l
  induction l with
  | nil => intro _ k b b' h; cases h
  | cons p l ih =>
    intro hnd k b b' h1 h2
    rw [List.map_cons, List.nodup_cons] at hnd
    rcases List.mem_cons.mp h1 with e1 | m1
    · rcases List.mem_cons.mp h2 with e2 | m2
      · have he : (k, b') = (k, b) := e2.trans e1.symm
        have := congrArg Prod.snd he
        exact this.symm
      · exfalso
        have hk : k ∈ l.map Prod.fst := List.mem_map.mpr ⟨(k, b'), m2, rfl⟩
        have hpk : p.1 = k := by rw [← e1]
        exact hnd.1 (hpk ▸ hk)
    · rcases List.mem_cons.mp h2 with e2 | m2
      · exfalso
        have hk : k ∈ l.map Prod.fst := List.mem_map.mpr ⟨(k, b), m1, rfl⟩
        have hpk : p.1 = k := by rw [← e2]
        exact hnd.1 (hpk ▸ hk)
      · exact ih hnd.2 m1 m2

theorem fcFold_inferred_mono (l : List (String × Rule)) :
    ∀ acc : Bool × FCState,
      acc.2.inferredFacts ⊆ (List.foldl fcStep acc l).2.inferredFacts := by
  induction l with
  | nil => intro acc; exact Finset.Subset.refl _
  | cons p l ih =>
    intro acc
    rw [List.foldl_cons]
    refine Finset.Subset.trans ?_ (ih (fcStep acc p))
    rcases fcStep_cases acc p with h | ⟨_, _, _, _, hinf, _⟩
    · rw [h]
    · rw [hinf]
      exact Finset.subset_insert _ _

theorem fcFold_fired_mono (l : List (String × Rule)) (acc : Bool × FCState)
    {id : String} (h : id ∈ acc.2.firedRules) :
    id ∈ (List.foldl fcStep acc l).2.firedRules := by
  rcases fcFold_fired l acc with ⟨ext, h1, _, _, _, _⟩
  rw [h1]
  exact List.mem_append_left _ h

theorem can_fire_of_wm (s : FCState) (r : Rule)
    (h : ∀ c ∈ r.conds, c ∈ s.workingMemory) : can_fire_rule s r = true := by
  unfold can_fire_rule
  rw [List.all_eq_true]
  intro c hc
  exact decide_eq_true (Finset.mem_union_left _ (h c hc))

theorem fcStep_fires (acc : Bool × FCState) (rid : String) (r : Rule)
    (hf : rid ∉ acc.2.firedRules) (hcan : can_fire_rule acc.2 r = true) :
    (fcStep acc (rid, r)).2.firedRules = acc.2.firedRules ++ [rid] ∧
    (fcStep acc (rid, r)).2.inferredFacts = insert r.concl acc.2.inferredFacts := by
  unfold fcStep
  rw [if_neg hf, if_pos hcan]
  constructor <;> simp [fire_rule, hf]

theorem fcFold_fires (l : List (String × Rule)) :
    ∀ (acc : Bool × FCState) (rid : String) (r : Rule),
      (l.map Prod.fst).Nodup →
      (rid, r) ∈ l →
      (∀ c ∈ r.conds, c ∈ acc.2.workingMemory) →
      (rid ∈ acc.2.firedRules → r.concl ∈ acc.2.inferredFacts) →
      rid ∈ (List.foldl fcStep acc l).2.firedRules ∧
      r.concl ∈ (List.foldl fcStep acc l).2.inferredFacts := by
  induction l with
  | nil => intro acc rid r _ hmem; cases hmem
  | cons p l ih =>
    intro acc rid r hnd hmem hconds hlink
    rw [List.foldl_cons]
    rcases List.mem_cons.mp hmem with heq | hmem'
    · rw [← heq]
      by_cases hf : rid ∈ acc.2.firedRules
      · have hstep : fcStep acc (rid, r) = acc := by
          unfold fcStep
          rw [if_pos hf]
        rw [hstep]
        exact ⟨fcFold_fired_mono l acc hf, fcFold_inferred_mono l acc (hlink hf)⟩
      · have hcan : can_fire_rule acc.2 r = true := can_fire_of_wm acc.2 r hconds
        have hfire := fcStep_fires acc rid r hf hcan
        constructor
        · apply fcFold_fired_mono
          rw [hfire.1]
          exact List.mem_append_right _ (by simp)
        · exact fcFold_inferred_mono l _
            (by rw [hfire.2]; exact Finset.mem_insert_self _ _)
    · have hnd2 := hnd
      rw [List.map_cons, List.nodup_cons] at hnd2
      have hridmem : rid ∈ l.map Prod.fst := List.mem_map.mpr ⟨(rid, r), hmem', rfl⟩
      apply ih (fcStep acc p) rid r hnd2.2 hmem'
      · intro c hc
        rw [fcStep_workingMemory]
        exact hconds c hc
      · intro hfin
        rcases fcStep_cases acc p with h | ⟨_, _, hfired, _, hinf, _⟩
        · rw [h] at hfin ⊢
          exact hlink hfin
        · rw [hfired] at hfin
          rw [hinf]
          rcases List.mem_append.mp hfin with hh | hh
          · exact Finset.mem_insert_of_mem (hlink hh)
          · exfalso
            have he : rid = p.1 := by simpa using hh
            exact hnd2.1 (he ▸ hridmem)

theorem forward_chain_fired_mono (rules : List (String × Rule)) :
    ∀ (n : Nat) (s : FCState) {id : String}, id ∈ s.firedRules →
      id ∈ (forward_chain rules n s).2.firedRules := by
  intro n
  induction n with
  | zero => intro s id h; exact h
  | succ n ih =>
    intro s id h
    rw [forward_chain_succ]
    split
    · exact ih _ (fcFold_fired_mono rules (false, s) h)
    · exact fcFold_fired_mono rules (false, s) h

theorem forward_chain_inferred_mono (rules : List (String × Rule)) :
    ∀ (n : Nat) (s : FCState) {x : String}, x ∈ s.inferredFacts →
      x ∈ (forward_chain rules n s).2.inferredFacts := by
  intro n
  induction n with
  | zero => intro s x h; exact h
  | succ n ih =>
    intro s x h
    rw [forward_chain_succ]
    split
    · exact ih _ (fcFold_inferred_mono rules (false, s) h)
    · exact fcFold_inferred_mono rules (false, s) h

theorem forward_chain_fires (rules : List (String × Rule)) (n : Nat) (s : FCState)
    (rid : String) (r : Rule)
    (hnd : (rules.map Prod.fst).Nodup)
    (hmem : (rid, r) ∈ rules)
    (hconds : ∀ c ∈ r.conds, c ∈ s.workingMemory)
    (hlink : rid ∈ s.firedRules → r.concl ∈ s.inferredFacts) :
    rid ∈ (forward_chain rules (n + 1) s).2.firedRules ∧
    r.concl ∈ (forward_chain rules (n + 1) s).2.inferredFacts := by
  have hpass := fcFold_fires rules (false, s) rid r hnd hmem hconds hlink
  rw [forward_chain_succ]
  split
  · exact ⟨forward_chain_fired_mono rules n _ hpass.1,
           forward_chain_inferred_mono rules n _ hpass.2⟩
  · exact hpass

theorem fcFold_scores (rules : List (String × Rule)) (rid0 : String) (r0 : Rule)
    (hnd : (rules.map Prod.fst).Nodup) (hmem0 : (rid0, r0) ∈ rules)
    (honly : ∀ p ∈ rules, p.1 ≠ rid0 → p.2.concl ≠ r0.concl) :
    ∀ (l : List (String × Rule)), (∀ p ∈ l, p ∈ rules) →
      ∀ acc : Bool × FCState,
        acc.2.diagnosisScores r0.concl
          = (if rid0 ∈ acc.2.firedRules then r0.cf else 0) →
        (List.foldl fcStep acc l).2.diagnosisScores r0.concl
          = (if rid0 ∈ (List.foldl fcStep acc l).2.firedRules then r0.cf else 0) := by
  intro l
  induction l with
  | nil => intro _ acc h; exact h
  | cons p l ih =>
    intro hl acc hacc
    rw [List.foldl_cons]
    apply ih fun q hq => hl q (List.mem_cons_of_mem p hq)
    rcases fcStep_cases acc p with h | ⟨hf, _, hfired, _, _, hscores⟩
    · rw [h]
      exact hacc
    · have hpmem : p ∈ rules := hl p (List.mem_cons_self p l)
      by_cases hpe : p.1 = rid0
      · have hpr : p.2 = r0 := by
          have hp' : (rid0, p.2) ∈ rules := by
            rw [← hpe]
            exact hpmem
          exact assoc_key_unique rules hnd hp' hmem0
        have hnot : rid0 ∉ acc.2.firedRules := by
          rw [← hpe]
          exact hf
        rw [hscores r0.concl, hfired]
        rw [if_pos (by rw [hpr]), hacc, if_neg hnot,
          if_pos (List.mem_append_right _ (by simp [hpe]))]
        rw [hpr]
        ring
      · have hconcl : p.2.concl ≠ r0.concl := honly p hpmem hpe
        rw [hscores r0.concl, if_neg fun hh => hconcl hh.symm, hfired]
        by_cases hr : rid0 ∈ acc.2.firedRules
        · rw [hacc, if_pos hr, if_pos (List.mem_append_left _ hr)]
        · rw [hacc, if_neg hr, if_neg ?_]
          rw [List.mem_append]
          rintro (hh | hh)
          · exact hr hh
          · have : rid0 = p.1 := by simpa using hh
            exact hpe this.symm

theorem forward_chain_scores (rules : List (String × Rule)) (rid0 : String)
    (r0 : Rule) (hnd : (rules.map Prod.fst).Nodup) (hmem0 : (rid0, r0) ∈ rules)
    (honly : ∀ p ∈ rules, p.1 ≠ rid0 → p.2.concl ≠ r0.concl) :
    ∀ (n : Nat) (s : FCState),
      s.diagnosisScores r0.concl = (if rid0 ∈ s.firedRules then r0.cf else 0) →
      (forward_chain rules n s).2.diagnosisScores r0.concl
        = (if rid0 ∈ (forward_chain rules n s).2.firedRules then r0.cf else 0) := by
  intro n
  induction n with
  | zero => intro s h; exact h
  | succ n ih =>
    intro s h
    have hpass := fcFold_scores rules rid0 r0 hnd hmem0 honly rules
      (fun q hq => hq) (false, s) h
    rw [forward_chain_succ]
    split
    · exact ih _ hpass
    · exact hpass

/-- C2: for any rule dict (distinct keys) containing
`R6 : IF [touchscreen_tidak_respons, layar_tampil_normal]
THEN kerusakan_touchscreen_digitizer CF 0.88` in which no other rule concludes
`kerusakan_touchscreen_digitizer`, a forward-chaining run (at least one
allowed pass) from the known facts of Scenario A fires R6, the inferred-fact
set contains `kerusakan_touchscreen_digitizer`, and its diagnosis score is
exactly 0.88. -/
theorem C2_forward_scenario_R6 (rules : List (String × Rule)) (n : Nat)
    (hnd : (rules.map Prod.fst).Nodup)
    (hmem : ("R6", ruleR6) ∈ rules)
    (honly : ∀ p ∈ rules, p.1 ≠ "R6" →
      p.2.concl ≠ "kerusakan_touchscreen_digitizer") :
    "R6" ∈ (forward_chain rules (n + 1)
        (fc_add_facts fcInit scenarioAFacts)).2.firedRules ∧
    "kerusakan_touchscreen_digitizer" ∈ (forward_chain rules (n + 1)
        (fc_add_facts fcInit scenarioAFacts)).2.inferredFacts ∧
    (forward_chain rules (n + 1)
        (fc_add_facts fcInit scenarioAFacts)).2.diagnosisScores
        "kerusakan_touchscreen_digitizer" = 0.88 := by
  have hwmem : (fc_add_facts fcInit scenarioAFacts).workingMemory
      = scenarioAFacts.toFinset := by
    rw [fc_add_facts_workingMemory]
    simp [fcInit]
  have hrest := fc_add_facts_rest scenarioAFacts fcInit
  have hfired0 : (fc_add_facts fcInit scenarioAFacts).firedRules = [] := by
    rw [hrest.2.1]
    rfl
  have hconds : ∀ c ∈ ruleR6.conds,
      c ∈ (fc_add_facts fcInit scenarioAFacts).workingMemory := by
    intro c hc
    rw [hwmem]
    simp only [ruleR6] at hc
    rcases List.mem_cons.mp hc with rfl | hc
    · decide
    · rcases List.mem_cons.mp hc with rfl | hc
      · decide
      · simp at hc
  have hlink : "R6" ∈ (fc_add_facts fcInit scenarioAFacts).firedRules →
      ruleR6.concl ∈ (fc_add_facts fcInit scenarioAFacts).inferredFacts := by
    intro h
    rw [hfired0] at h
    simp at h
  have hfires := forward_chain_fires rules n _ "R6" ruleR6 hnd hmem hconds hlink
  have honly' : ∀ p ∈ rules, p.1 ≠ "R6" → p.2.concl ≠ ruleR6.concl := honly
  have hinv0 : (fc_add_facts fcInit scenarioAFacts).diagnosisScores ruleR6.concl
      = (if "R6" ∈ (fc_add_facts fcInit scenarioAFacts).firedRules
         then ruleR6.cf else 0) := by
    rw [hrest.2.2, hfired0]
    simp [fcInit]
  have hscores := forward_chain_scores rules "R6" ruleR6 hnd hmem honly'
    (n + 1) _ hinv0
  refine ⟨hfires.1, hfires.2, ?_⟩
  have hc : "kerusakan_touchscreen_digitizer" = ruleR6.concl := rfl
  rw [hc, hscores, if_pos hfires.1]
  rfl

/-- Witness for C2 with the one-rule dict `{R6}` and the default
`max_iterations = 50`. -/
theorem C2_forward_scenario_R6_witness :
    "R6" ∈ (forward_chain [("R6", ruleR6)] (49 + 1)
        (fc_add_facts fcInit scenarioAFacts)).2.firedRules ∧
    "kerusakan_touchscreen_digitizer" ∈ (forward_chain [("R6", ruleR6)] (49 + 1)
        (fc_add_facts fcInit scenarioAFacts)).2.inferredFacts ∧
    (forward_chain [("R6", ruleR6)] (49 + 1)
        (fc_add_facts fcInit scenarioAFacts)).2.diagnosisScores
        "kerusakan_touchscreen_digitizer" = 0.88 :=
  C2_forward_scenario_R6 [("R6", ruleR6)] 49 (by simp)
    (List.mem_cons_self _ _)
    (by
      intro p hp hne
      simp at hp
      exact absurd (congrArg Prod.fst hp) hne)

/-! ## Claim C9 -/

/-- C9: evaluation of the code at the failing input.  On the cyclic rule set
`rulesCyclic` with known fact `y` and the default depth bound 10,
`prove_goal("g")` returns True, yet afterwards `g` is a member of BOTH
`proved_goals` and `failed_goals`: the depth bound truncates the innermost
nested attempt at `g`, a `g`-frame at depth 10 memoizes that propagated
failure, and the `g`-frame at depth 8 then succeeds through R2 and also
memoizes `g` as proved.  The claimed disjointness invariant is violated. -/
theorem C9_failing_input_eval :
    (proveGoalTop rulesCyclic none "g" (bcInit ["y"])).1 = true ∧
    "g" ∈ (proveGoalTop rulesCyclic none "g" (bcInit ["y"])).2.provedGoals ∧
    "g" ∈ (proveGoalTop rulesCyclic none "g" (bcInit ["y"])).2.failedGoals := by
  refine ⟨?_, ?_, ?_⟩ <;> decide

/-! ## Claim C3 -/

theorem bc_add_facts_fields (facts : List String) :
    ∀ s : BCState,
      (bc_add_facts s facts).workingMemory = s.workingMemory ∪ facts.toFinset ∧
      (bc_add_facts s facts).askedQuestions = s.askedQuestions ∧
      (bc_add_facts s facts).provedGoals = s.provedGoals ∧
      (bc_add_facts s facts).failedGoals = s.failedGoals ∧
      (bc_add_facts s facts).oracleLog = s.oracleLog := by
  unfold bc_add_facts
  induction facts with
  | nil => intro s; exact ⟨by simp, rfl, rfl, rfl, rfl⟩
  | cons fa fs ih =>
    intro s
    rw [List.foldl_cons]
    rcases ih _ with ⟨h1, h2, h3, h4, h5⟩
    refine ⟨?_, h2, h3, h4, h5⟩
    rw [h1]
    simp [List.toFinset_cons, Finset.insert_union, Finset.union_insert]

/-- C3: for a goal `g` that no rule concludes, not among the session's known
facts, with an oracle answering true on `g`: `prove_goal(g)` (default depth
arguments, fresh session) returns True, adds `g` to working memory and
`proved_goals`, leaves `asked_questions = {g}` and exactly one oracle
invocation; a second identical call returns True from the `proved_goals`
cache with a completely unchanged state — in particular without invoking the
oracle again, so the oracle runs at most once for `g` in the session. -/
theorem C3_backward_ask_once (rules : List (String × Rule)) (f : String → Bool)
    (g : String) (facts : List String)
    (hnorule : ∀ p ∈ rules, p.2.concl ≠ g)
    (hnofact : g ∉ facts) (hyes : f g = true) :
    (proveGoalTop rules (some f) g (bcInit facts)).1 = true ∧
    g ∈ (proveGoalTop rules (some f) g (bcInit facts)).2.workingMemory ∧
    g ∈ (proveGoalTop rules (some f) g (bcInit facts)).2.provedGoals ∧
    (proveGoalTop rules (some f) g (bcInit facts)).2.askedQuestions = {g} ∧
    (proveGoalTop rules (some f) g (bcInit facts)).2.oracleLog = [g] ∧
    proveGoalTop rules (some f) g (proveGoalTop rules (some f) g (bcInit facts)).2
      = (true, (proveGoalTop rules (some f) g (bcInit facts)).2) := by
  obtain ⟨hwm, hask, hprov, hfail, hlog⟩ := bc_add_facts_fields facts bcInitState
  have hwm0 : (bcInit facts).workingMemory = facts.toFinset := by
    unfold bcInit
    rw [hwm]
    simp [bcInitState]
  have hask0 : (bcInit facts).askedQuestions = ∅ := by
    unfold bcInit
    rw [hask]
    rfl
  have hprov0 : (bcInit facts).provedGoals = ∅ := by
    unfold bcInit
    rw [hprov]
    rfl
  have hfail0 : (bcInit facts).failedGoals = ∅ := by
    unfold bcInit
    rw [hfail]
    rfl
  have hlog0 : (bcInit facts).oracleLog = [] := by
    unfold bcInit
    rw [hlog]
    rfl
  have hfilter : (rules.filter fun p => p.2.concl == g) = [] := by
    rw [List.filter_eq_nil_iff]
    intro p hp
    simp [hnorule p hp]
  have hfe : (rules.filter fun p => p.2.concl == g).isEmpty = true := by
    rw [hfilter]
    rfl
  have haskR : ask_user (some f) (bcInit facts) g
      = (true,
         { bcInit facts with
             askedQuestions := insert g (bcInit facts).askedQuestions,
             reasoningTrace := (bcInit facts).reasoningTrace
               ++ [BCEvent.userQuestioned g true],
             oracleLog := (bcInit facts).oracleLog ++ [g] }) := by
    unfold ask_user
    rw [if_neg (by rw [hask0]; simp)]
    simp [hyes]
  have h12 : (12 : Nat) = 11 + 1 := rfl
  have key : proveGoalTop rules (some f) g (bcInit facts)
      = (true,
         { bcInit facts with
             workingMemory := insert g (bcInit facts).workingMemory,
             askedQuestions := insert g (bcInit facts).askedQuestions,
             provedGoals := insert g (bcInit facts).provedGoals,
             reasoningTrace := (bcInit facts).reasoningTrace
               ++ [BCEvent.userQuestioned g true, BCEvent.provedByUser g 0],
             oracleLog := (bcInit facts).oracleLog ++ [g] }) := by
    unfold proveGoalTop
    rw [h12, prove_goal]
    rw [if_neg (by norm_num)]
    rw [if_neg (by rw [hprov0]; simp)]
    rw [if_neg (by rw [hfail0]; simp)]
    rw [if_neg (by rw [hwm0]; simp [hnofact])]
    rw [if_pos hfe, haskR]
    simp [List.append_assoc]
  refine ⟨?_, ?_, ?_, ?_, ?_, ?_⟩
  · rw [key]
  · rw [key]
    exact Finset.mem_insert_self _ _
  · rw [key]
    exact Finset.mem_insert_self _ _
  · rw [key]
    show insert g (bcInit facts).askedQuestions = {g}
    rw [hask0]
    simp
  · rw [key]
    show (bcInit facts).oracleLog ++ [g] = [g]
    rw [hlog0]
    rfl
  · rw [key]
    unfold proveGoalTop
    rw [h12, prove_goal]
    rw [if_neg (by norm_num)]
    rw [if_pos (Finset.mem_insert_self g _)]

/-- Witness for C3 with one irrelevant rule, no known facts and the
always-true oracle. -/
theorem C3_backward_ask_once_witness :
    (proveGoalTop [("R1", { conds := ["a"], concl := "b", cf := 0.5 })]
        (some fun _ => true) "g" (bcInit [])).2.askedQuestions = {"g"} ∧
    (proveGoalTop [("R1", { conds := ["a"], concl := "b", cf := 0.5 })]
        (some fun _ => true) "g" (bcInit [])).2.oracleLog = ["g"] := by
  have h := C3_backward_ask_once
      [("R1", { conds := ["a"], concl := "b", cf := 0.5 })]
      (fun _ => true) "g" []
      (by
        intro p hp
        simp at hp
        rw [hp]
        decide)
      (by simp) rfl
  exact ⟨h.2.2.2.1, h.2.2.2.2.1⟩

/-! ## Claim C6 -/

theorem contribCfs_append (t1 t2 : List BCEvent) (g : String) :
    contribCfs (t1 ++ t2) g = contribCfs t1 g ++ contribCfs t2 g := by
  unfold contribCfs
  rw [List.filterMap_append]

theorem contribCfs_tryingRule (rid goal : String) (conds : List String)
    (depth : Nat) (g : String) :
    contribCfs [BCEvent.tryingRule rid goal conds depth] g = [] := rfl

theorem contribCfs_provedByRule (rid goal : String) (cf : ℚ) (depth : Nat)
    (g : String) :
    contribCfs [BCEvent.provedByRule rid goal cf depth] g
      = if goal = g then [cf] else [] := by
  unfold contribCfs
  by_cases he : goal = g
  · rw [if_pos he, List.filterMap_cons]
    simp [he]
  · rw [if_neg he, List.filterMap_cons]
    simp [he]

theorem ask_user_fields (oracle : Option (String → Bool)) (s : BCState)
    (q : String) :
    (ask_user oracle s q).2.provedGoals = s.provedGoals ∧
    (∀ g : String, contribCfs (ask_user oracle s q).2.reasoningTrace g
      = contribCfs s.reasoningTrace g) := by
  unfold ask_user
  split
  · exact ⟨rfl, fun g => rfl⟩
  · cases oracle with
    | some f =>
      refine ⟨rfl, fun g => ?_⟩
      show contribCfs (s.reasoningTrace ++ [BCEvent.userQuestioned q (f q)]) g = _
      rw [contribCfs_append]
      show contribCfs s.reasoningTrace g ++ [] = _
      rw [List.append_nil]
    | none => exact ⟨rfl, fun g => rfl⟩

theorem proveConds_no_new (g : String) (pg : String → BCState → Bool × BCState)
    (hpg : ∀ c s, g ∈ s.provedGoals →
      g ∈ (pg c s).2.provedGoals ∧
      contribCfs (pg c s).2.reasoningTrace g = contribCfs s.reasoningTrace g) :
    ∀ (cs : List String) (s : BCState), g ∈ s.provedGoals →
      g ∈ (proveConds pg cs s).2.provedGoals ∧
      contribCfs (proveConds pg cs s).2.reasoningTrace g
        = contribCfs s.reasoningTrace g := by
  intro cs
  induction cs with
  | nil => intro s hg; exact ⟨hg, rfl⟩
  | cons c cs ih =>
    intro s hg
    unfold proveConds
    rcases h : pg c s with ⟨b, s'⟩
    have hps := hpg c s hg
    rw [h] at hps
    cases b
    · exact hps
    · rcases ih s' hps.1 with ⟨ih1, ih2⟩
      exact ⟨ih1, ih2.trans hps.2⟩

theorem tryRules_no_new (g goal : String) (depth : Nat)
    (pg : String → BCState → Bool × BCState) (hgg : goal ≠ g)
    (hpg : ∀ c s, g ∈ s.provedGoals →
      g ∈ (pg c s).2.provedGoals ∧
      contribCfs (pg c s).2.reasoningTrace g = contribCfs s.reasoningTrace g) :
    ∀ (l : List (String × Rule)) (s : BCState), g ∈ s.provedGoals →
      g ∈ (tryRules pg goal depth l s).2.provedGoals ∧
      contribCfs (tryRules pg goal depth l s).2.reasoningTrace g
        = contribCfs s.reasoningTrace g := by
  intro l
  induction l with
  | nil => intro s hg; exact ⟨hg, rfl⟩
  | cons p l ih =>
    rcases p with ⟨rid, r⟩
    intro s hg
    unfold tryRules
    have htr1 : contribCfs (s.reasoningTrace
        ++ [BCEvent.tryingRule rid goal r.conds depth]) g
        = contribCfs s.reasoningTrace g := by
      rw [contribCfs_append, contribCfs_tryingRule, List.append_nil]
    rcases h : proveConds pg r.conds
        { s with reasoningTrace := s.reasoningTrace
          ++ [BCEvent.tryingRule rid goal r.conds depth] } with ⟨b, s'⟩
    have hpc := proveConds_no_new g pg hpg r.conds
      { s with reasoningTrace := s.reasoningTrace
        ++ [BCEvent.tryingRule rid goal r.conds depth] } hg
    rw [h] at hpc
    cases b
    · rcases ih s' hpc.1 with ⟨ih1, ih2⟩
      exact ⟨ih1, (ih2.trans hpc.2).trans htr1⟩
    · refine ⟨Finset.mem_insert_of_mem hpc.1, ?_⟩
      show contribCfs (s'.reasoningTrace
        ++ [BCEvent.provedByRule rid goal r.cf depth]) g = _
      rw [contribCfs_append, contribCfs_provedByRule, if_neg hgg,
        List.append_nil]
      exact hpc.2.trans htr1

theorem prove_goal_no_new (rules : List (String × Rule))
    (oracle : Option (String → Bool)) (maxDepth : Nat) (g : String) :
    ∀ (fuel : Nat) (goal : String) (depth : Nat) (s : BCState),
      g ∈ s.provedGoals →
      g ∈ (prove_goal rules oracle maxDepth fuel goal depth s).2.provedGoals ∧
      contribCfs
          (prove_goal rules oracle maxDepth fuel goal depth s).2.reasoningTrace g
        = contribCfs s.reasoningTrace g := by
  intro fuel
  induction fuel with
  | zero => intro goal depth s hg; exact ⟨hg, rfl⟩
  | succ fuel ih =>
    intro goal depth s hg
    rw [prove_goal]
    split
    · refine ⟨hg, ?_⟩
      show contribCfs (s.reasoningTrace
        ++ [BCEvent.maxDepthReached goal depth]) g = _
      rw [contribCfs_append]
      show contribCfs s.reasoningTrace g ++ [] = _
      rw [List.append_nil]
    · split
      · exact ⟨hg, rfl⟩
      · split
        · exact ⟨hg, rfl⟩
        · split
          · refine ⟨Finset.mem_insert_of_mem hg, ?_⟩
            show contribCfs (s.reasoningTrace
              ++ [BCEvent.provedByFact goal depth]) g = _
            rw [contribCfs_append]
            show contribCfs s.reasoningTrace g ++ [] = _
            rw [List.append_nil]
          · split
            · rcases hau : ask_user oracle s goal with ⟨b, s'⟩
              have hf := ask_user_fields oracle s goal
              rw [hau] at hf
              cases b
              · exact ⟨hf.1 ▸ hg, hf.2 g⟩
              · refine ⟨Finset.mem_insert_of_mem (hf.1 ▸ hg), ?_⟩
                show contribCfs (s'.reasoningTrace
                  ++ [BCEvent.provedByUser goal depth]) g = _
                rw [contribCfs_append]
                show contribCfs s'.reasoningTrace g ++ [] = _
                rw [List.append_nil]
                exact hf.2 g
            · rename_i hd hp hfail hwm hempty
              have hgg : goal ≠ g := fun he => hp (he ▸ hg)
              exact tryRules_no_new g goal depth _ hgg
                (fun c st hst => ih c (depth + 1) st hst)
                (rules.filter fun p => p.2.concl == goal) s hg

theorem tryRules_true_proved (pg : String → BCState → Bool × BCState)
    (goal : String) (depth : Nat) :
    ∀ (l : List (String × Rule)) (s : BCState),
      (tryRules pg goal depth l s).1 = true →
      goal ∈ (tryRules pg goal depth l s).2.provedGoals := by
  intro l
  induction l with
  | nil =>
    intro s h
    simp [tryRules] at h
  | cons p l ih =>
    rcases p with ⟨rid, r⟩
    intro s
    unfold tryRules
    rcases hpc : proveConds pg r.conds
        { s with reasoningTrace := s.reasoningTrace
          ++ [BCEvent.tryingRule rid goal r.conds depth] } with ⟨b, s'⟩
    intro h
    cases b
    · exact ih _ h
    · exact Finset.mem_insert_self _ _

theorem prove_goal_true_proved (rules : List (String × Rule))
    (oracle : Option (String → Bool)) (maxDepth : Nat) :
    ∀ (fuel : Nat) (goal : String) (depth : Nat) (s s' : BCState),
      prove_goal rules oracle maxDepth fuel goal depth s = (true, s') →
      goal ∈ s'.provedGoals := by
  intro fuel
  cases fuel with
  | zero =>
    intro goal depth s s' hEq
    exact absurd (congrArg Prod.fst hEq) (by simp [prove_goal])
  | succ fuel =>
    intro goal depth s s' hEq
    rw [prove_goal] at hEq
    split at hEq
    · exact absurd (congrArg Prod.fst hEq) (by simp)
    · split at hEq
      · rename_i hprovmem
        have hs := congrArg Prod.snd hEq
        simp at hs
        rw [← hs]
        exact hprovmem
      · split at hEq
        · exact absurd (congrArg Prod.fst hEq) (by simp)
        · split at hEq
          · have hs := congrArg Prod.snd hEq
            simp at hs
            rw [← hs]
            exact Finset.mem_insert_self _ _
          · split at hEq
            · split at hEq
              · have hs := congrArg Prod.snd hEq
                simp at hs
                rw [← hs]
                exact Finset.mem_insert_self _ _
              · exact absurd (congrArg Prod.fst hEq) (by simp)
            · have h1 : (tryRules
                  (fun g st => prove_goal rules oracle maxDepth fuel g (depth + 1) st)
                  goal depth (rules.filter fun p => p.2.concl == goal) s).1
                  = true := by
                rw [hEq]
              have h2 := tryRules_true_proved
                (fun g st => prove_goal rules oracle maxDepth fuel g (depth + 1) st)
                goal depth (rules.filter fun p => p.2.concl == goal) s h1
              rw [hEq] at h2
              exact h2

theorem contribCfs_maxDepthReached (goal : String) (depth : Nat) (g : String) :
    contribCfs [BCEvent.maxDepthReached goal depth] g = [] := rfl

theorem contribCfs_provedByFact (goal : String) (depth : Nat) (g : String) :
    contribCfs [BCEvent.provedByFact goal depth] g = [] := rfl

theorem contribCfs_provedByUser (goal : String) (depth : Nat) (g : String) :
    contribCfs [BCEvent.provedByUser goal depth] g = [] := rfl

theorem mem_contrib_append_nil {x : ℚ} {t : List BCEvent} {e : BCEvent}
    {g : String} (hx : x ∈ contribCfs (t ++ [e]) g)
    (he : contribCfs [e] g = []) : x ∈ contribCfs t g := by
  rw [contribCfs_append, he, List.append_nil] at hx
  exact hx

theorem proveConds_cfbound (q : String)
    (pg : String → BCState → Bool × BCState)
    (hpg : ∀ c s, (∀ x ∈ contribCfs s.reasoningTrace q, x ≤ 1) →
      ∀ x ∈ contribCfs (pg c s).2.reasoningTrace q, x ≤ 1) :
    ∀ (cs : List String) (s : BCState),
      (∀ x ∈ contribCfs s.reasoningTrace q, x ≤ 1) →
      ∀ x ∈ contribCfs (proveConds pg cs s).2.reasoningTrace q, x ≤ 1 := by
  intro cs
  induction cs with
  | nil => intro s hs; exact hs
  | cons c cs ih =>
    intro s hs
    unfold proveConds
    rcases h : pg c s with ⟨b, s'⟩
    have hps := hpg c s hs
    rw [h] at hps
    cases b
    · exact hps
    · exact ih s' hps

theorem tryRules_cfbound (q goal : String) (depth : Nat)
    (pg : String → BCState → Bool × BCState)
    (hpg : ∀ c s, (∀ x ∈ contribCfs s.reasoningTrace q, x ≤ 1) →
      ∀ x ∈ contribCfs (pg c s).2.reasoningTrace q, x ≤ 1) :
    ∀ (l : List (String × Rule)) (s : BCState),
      (∀ p ∈ l, p.2.cf ≤ 1) →
      (∀ x ∈ contribCfs s.reasoningTrace q, x ≤ 1) →
      ∀ x ∈ contribCfs (tryRules pg goal depth l s).2.reasoningTrace q, x ≤ 1 := by
  intro l
  induction l with
  | nil => intro s _ hs; exact hs
  | cons p l ih =>
    rcases p with ⟨rid, r⟩
    intro s hl hs
    unfold tryRules
    have hs1 : ∀ x ∈ contribCfs ({ s with reasoningTrace := s.reasoningTrace
        ++ [BCEvent.tryingRule rid goal r.conds depth] }).reasoningTrace q,
        x ≤ 1 := by
      intro x hx
      exact hs x (mem_contrib_append_nil hx (contribCfs_tryingRule _ _ _ _ _))
    rcases h : proveConds pg r.conds
        { s with reasoningTrace := s.reasoningTrace
          ++ [BCEvent.tryingRule rid goal r.conds depth] } with ⟨b, s'⟩
    have hpc := proveConds_cfbound q pg hpg r.conds
      { s with reasoningTrace := s.reasoningTrace
        ++ [BCEvent.tryingRule rid goal r.conds depth] } hs1
    rw [h] at hpc
    cases b
    · exact ih s' (fun p hp => hl p (List.mem_cons_of_mem _ hp)) hpc
    · intro x hx
      have hx' : x ∈ contribCfs (s'.reasoningTrace
          ++ [BCEvent.provedByRule rid goal r.cf depth]) q := hx
      rw [contribCfs_append] at hx'
      rcases List.mem_append.mp hx' with h1 | h2
      · exact hpc x h1
      · rw [contribCfs_provedByRule] at h2
        split at h2
        · have hxr : x = r.cf := by simpa using h2
          rw [hxr]
          exact hl (rid, r) (List.mem_cons_self _ _)
        · exact absurd h2 (List.not_mem_nil x)

theorem prove_goal_cfbound (rules : List (String × Rule))
    (oracle : Option (String → Bool)) (maxDepth : Nat) (q : String)
    (hrules : ∀ p ∈ rules, p.2.cf ≤ 1) :
    ∀ (fuel : Nat) (goal : String) (depth : Nat) (s : BCState),
      (∀ x ∈ contribCfs s.reasoningTrace q, x ≤ 1) →
      ∀ x ∈ contribCfs
          (prove_goal rules oracle maxDepth fuel goal depth s).2.reasoningTrace q,
        x ≤ 1 := by
  intro fuel
  induction fuel with
  | zero => intro goal depth s hs; exact hs
  | succ fuel ih =>
    intro goal depth s hs
    rw [prove_goal]
    split
    · intro x hx
      exact hs x (mem_contrib_append_nil hx (contribCfs_maxDepthReached _ _ _))
    · split
      · exact hs
      · split
        · exact hs
        · split
          · intro x hx
            exact hs x (mem_contrib_append_nil hx (contribCfs_provedByFact _ _ _))
          · split
            · rcases hau : ask_user oracle s goal with ⟨b, s'⟩
              have hf := ask_user_fields oracle s goal
              rw [hau] at hf
              have hs' : ∀ x ∈ contribCfs s'.reasoningTrace q, x ≤ 1 := by
                intro x hx
                exact hs x (hf.2 q ▸ hx)
              cases b
              · exact hs'
              · intro x hx
                exact hs' x
                  (mem_contrib_append_nil hx (contribCfs_provedByUser _ _ _))
            · exact tryRules_cfbound q goal depth _
                (fun c st hst => ih c (depth + 1) st hst)
                (rules.filter fun p => p.2.concl == goal) s
                (fun p hp => hrules p (List.mem_of_mem_filter hp)) hs

theorem foldl_min_le (l : List ℚ) :
    ∀ a : ℚ, List.foldl min a l ≤ a ∧ ∀ x ∈ l, List.foldl min a l ≤ x := by
  induction l with
  | nil => intro a; exact ⟨le_refl a, fun x hx => absurd hx (List.not_mem_nil x)⟩
  | cons y l ih =>
    intro a
    rw [List.foldl_cons]
    rcases ih (min a y) with ⟨h1, h2⟩
    refine ⟨h1.trans (min_le_left a y), ?_⟩
    intro x hx
    rcases List.mem_cons.mp hx with rfl | hx
    · exact h1.trans (min_le_right a x)
    · exact h2 x hx

theorem foldl_min_mem (l : List ℚ) :
    ∀ a : ℚ, List.foldl min a l = a ∨ List.foldl min a l ∈ l := by
  induction l with
  | nil => intro a; exact Or.inl rfl
  | cons y l ih =>
    intro a
    rw [List.foldl_cons]
    rcases ih (min a y) with h | h
    · rcases min_choice a y with hm | hm
      · exact Or.inl (h.trans hm)
      · exact Or.inr (by rw [h, hm]; exact List.mem_cons_self _ _)
    · exact Or.inr (List.mem_cons_of_mem _ h)

theorem contribCfs_cons (e : BCEvent) (t : List BCEvent) (g : String) :
    contribCfs (e :: t) g
      = (match e with
         | BCEvent.provedByRule _ g' cf _ =>
           if g' = g then cf :: contribCfs t g else contribCfs t g
         | _ => contribCfs t g) := by
  cases e with
  | provedByRule rid g' cf d =>
    by_cases hg : g' = g <;> simp [contribCfs, List.filterMap_cons, hg]
  | factAdded fa => simp [contribCfs, List.filterMap_cons]
  | maxDepthReached goal depth => simp [contribCfs, List.filterMap_cons]
  | provedByFact goal depth => simp [contribCfs, List.filterMap_cons]
  | tryingRule rid goal conds depth => simp [contribCfs, List.filterMap_cons]
  | provedByUser goal depth => simp [contribCfs, List.filterMap_cons]
  | userQuestioned quest ans => simp [contribCfs, List.filterMap_cons]

theorem calc_conf_foldl (g : String) :
    ∀ (trace : List BCEvent) (a : ℚ),
      List.foldl
        (fun conf e =>
          match e with
          | BCEvent.provedByRule _ g' cf _ =>
            if g' = g then min conf cf else conf
          | _ => conf) a trace
      = List.foldl min a (contribCfs trace g) := by
  intro trace
  induction trace with
  | nil => intro a; rfl
  | cons e t ih =>
    intro a
    rw [List.foldl_cons, contribCfs_cons]
    cases e with
    | provedByRule rid g' cf d =>
      by_cases hg : g' = g
      · simp only [hg, if_pos]
        rw [List.foldl_cons]
        exact ih (min a cf)
      · simp only [if_neg hg]
        exact ih a
    | factAdded fa => exact ih a
    | maxDepthReached goal depth => exact ih a
    | provedByFact goal depth => exact ih a
    | tryingRule rid goal conds depth => exact ih a
    | provedByUser goal depth => exact ih a
    | userQuestioned quest ans => exact ih a

theorem calculate_goal_confidence_eq (trace : List BCEvent) (g : String) :
    calculate_goal_confidence trace g
      = List.foldl min 1 (contribCfs trace g) := by
  unfold calculate_goal_confidence
  exact calc_conf_foldl g trace 1

theorem bc_add_facts_contrib (facts : List String) :
    ∀ (s : BCState) (g : String),
      contribCfs (bc_add_facts s facts).reasoningTrace g
        = contribCfs s.reasoningTrace g := by
  unfold bc_add_facts
  induction facts with
  | nil => intro s g; rfl
  | cons fa fs ih =>
    intro s g
    rw [List.foldl_cons, ih]
    show contribCfs (s.reasoningTrace ++ [BCEvent.factAdded fa]) g = _
    rw [contribCfs_append]
    show contribCfs s.reasoningTrace g ++ [] = _
    rw [List.append_nil]

theorem backward_chain_proj (rules : List (String × Rule))
    (oracle : Option (String → Bool)) (goals : List String) (s : BCState) :
    (backward_chain rules oracle goals s).1.provedList
      = (goals.foldl (bcChainStep rules oracle)
          ({ provedList := [], failedList := [], finalTrace := [],
             questionsAskedSnapshot := s.askedQuestions }, s)).1.provedList ∧
    (backward_chain rules oracle goals s).1.finalTrace
      = (goals.foldl (bcChainStep rules oracle)
          ({ provedList := [], failedList := [], finalTrace := [],
             questionsAskedSnapshot := s.askedQuestions }, s)).2.reasoningTrace := by
  constructor <;> rfl

/-- C6: in every backward-chaining session over a rule set with CFs at most 1
(the data-model authoring invariant), the confidence that `backward_chain`
reports for each proved goal is exactly the minimum CF among all rules
recorded in the final reasoning trace as contributing
(`goal_proved_by_rule` events for that goal), and 1.0 when no rule-fired
event contributed (goal proved directly by a fact or by the user). -/
theorem C6_backward_confidence_min (rules : List (String × Rule))
    (oracle : Option (String → Bool)) (goals : List String)
    (facts : List String) (hcf : ∀ p ∈ rules, p.2.cf ≤ 1)
    (gname : String) (conf : ℚ)
    (hmem : (gname, conf)
      ∈ (backward_chain rules oracle goals (bcInit facts)).1.provedList) :
    (contribCfs (backward_chain rules oracle goals (bcInit facts)).1.finalTrace
        gname = [] → conf = 1) ∧
    (∀ x ∈ contribCfs
        (backward_chain rules oracle goals (bcInit facts)).1.finalTrace gname,
      conf ≤ x) ∧
    (contribCfs (backward_chain rules oracle goals (bcInit facts)).1.finalTrace
        gname ≠ [] →
      conf ∈ contribCfs
        (backward_chain rules oracle goals (bcInit facts)).1.finalTrace gname) := by
  have key : ∀ (gs : List String) (acc : BCResult × BCState),
      (∀ (gn : String) (cf : ℚ), (gn, cf) ∈ acc.1.provedList →
        gn ∈ acc.2.provedGoals ∧
        cf = List.foldl min 1 (contribCfs acc.2.reasoningTrace gn)) →
      (∀ (q : String) (x : ℚ), x ∈ contribCfs acc.2.reasoningTrace q → x ≤ 1) →
      (∀ (gn : String) (cf : ℚ),
        (gn, cf) ∈ (gs.foldl (bcChainStep rules oracle) acc).1.provedList →
        gn ∈ (gs.foldl (bcChainStep rules oracle) acc).2.provedGoals ∧
        cf = List.foldl min 1 (contribCfs
          (gs.foldl (bcChainStep rules oracle) acc).2.reasoningTrace gn)) ∧
      (∀ (q : String) (x : ℚ),
        x ∈ contribCfs (gs.foldl (bcChainStep rules oracle) acc).2.reasoningTrace q
        → x ≤ 1) := by
    intro gs
    induction gs with
    | nil => intro acc hA hB; exact ⟨hA, hB⟩
    | cons gnew gs ih =>
      intro acc hA hB
      rw [List.foldl_cons]
      apply ih
      · unfold bcChainStep
        rcases hpt : proveGoalTop rules oracle gnew acc.2 with ⟨b, st⟩
        have hpt' : prove_goal rules oracle 10 12 gnew 0 acc.2 = (b, st) := hpt
        cases b
        · intro gn cf hm
          rcases hA gn cf hm with ⟨h1, h2⟩
          have hnn := prove_goal_no_new rules oracle 10 gn 12 gnew 0 acc.2 h1
          rw [hpt'] at hnn
          refine ⟨hnn.1, ?_⟩
          rw [hnn.2]
          exact h2
        · intro gn cf hm
          have hm' : (gn, cf) ∈ acc.1.provedList
              ++ [(gnew, calculate_goal_confidence st.reasoningTrace gnew)] := hm
          rcases List.mem_append.mp hm' with hold | hnew2
          · rcases hA gn cf hold with ⟨h1, h2⟩
            have hnn := prove_goal_no_new rules oracle 10 gn 12 gnew 0 acc.2 h1
            rw [hpt'] at hnn
            refine ⟨hnn.1, ?_⟩
            rw [hnn.2]
            exact h2
          · have hpair : gn = gnew
                ∧ cf = calculate_goal_confidence st.reasoningTrace gnew := by
              simpa using hnew2
            rcases hpair with ⟨rfl, hconf⟩
            refine ⟨prove_goal_true_proved rules oracle 10 12 gn 0 acc.2 st hpt', ?_⟩
            rw [hconf, calculate_goal_confidence_eq]
      · unfold bcChainStep
        rcases hpt : proveGoalTop rules oracle gnew acc.2 with ⟨b, st⟩
        have hpt' : prove_goal rules oracle 10 12 gnew 0 acc.2 = (b, st) := hpt
        have hbnd : ∀ (q : String) (x : ℚ),
            x ∈ contribCfs st.reasoningTrace q → x ≤ 1 := by
          intro q x hx
          have hcb := prove_goal_cfbound rules oracle 10 q hcf 12 gnew 0 acc.2
            (fun y hy => hB q y hy)
          rw [hpt'] at hcb
          exact hcb x hx
        cases b
        · exact hbnd
        · exact hbnd
  obtain ⟨hp1, hp2⟩ := backward_chain_proj rules oracle goals (bcInit facts)
  have hA0 : ∀ (gn : String) (cf : ℚ),
      (gn, cf) ∈ ([] : List (String × ℚ)) →
      gn ∈ (bcInit facts).provedGoals ∧
      cf = List.foldl min 1 (contribCfs (bcInit facts).reasoningTrace gn) := by
    intro gn cf hm
    exact absurd hm (List.not_mem_nil _)
  have hcontrib0 : ∀ q : String,
      contribCfs (bcInit facts).reasoningTrace q = [] := by
    intro q
    unfold bcInit
    rw [bc_add_facts_contrib]
    rfl
  have hB0 : ∀ (q : String) (x : ℚ),
      x ∈ contribCfs (bcInit facts).reasoningTrace q → x ≤ 1 := by
    intro q x hx
    rw [hcontrib0 q] at hx
    exact absurd hx (List.not_mem_nil _)
  obtain ⟨hKA, hKB⟩ := key goals
    ({ provedList := [], failedList := [], finalTrace := [],
       questionsAskedSnapshot := (bcInit facts).askedQuestions }, bcInit facts)
    hA0 hB0
  rw [hp1] at hmem
  rcases hKA gname conf hmem with ⟨_, hval⟩
  rw [hp2]
  refine ⟨?_, ?_, ?_⟩
  · intro hnil
    rw [hval, hnil]
    rfl
  · intro x hx
    rw [hval]
    exact (foldl_min_le _ 1).2 x hx
  · intro hne
    rcases foldl_min_mem (contribCfs
        (goals.foldl (bcChainStep rules oracle)
          ({ provedList := [], failedList := [], finalTrace := [],
             questionsAskedSnapshot := (bcInit facts).askedQuestions },
           bcInit facts)).2.reasoningTrace gname) 1 with h1 | h2
    · have hconf1 : conf = 1 := hval.trans h1
      obtain ⟨y, ys, hT⟩ := List.exists_cons_of_ne_nil hne
      have hyT : y ∈ contribCfs
          (goals.foldl (bcChainStep rules oracle)
            ({ provedList := [], failedList := [], finalTrace := [],
               questionsAskedSnapshot := (bcInit facts).askedQuestions },
             bcInit facts)).2.reasoningTrace gname := by
        rw [hT]
        exact List.mem_cons_self _ _
      have h1y := (foldl_min_le _ 1).2 y hyT
      have hy1 : y ≤ 1 := hKB gname y hyT
      have hyc : y = conf := by
        rw [hconf1]
        refine le_antisymm hy1 ?_
        rw [← h1]
        exact h1y
      exact hyc ▸ hyT
    · rw [hval]
      exact h2

theorem backward_chain_single (rules : List (String × Rule))
    (oracle : Option (String → Bool)) (g : String) (s : BCState)
    (h : (proveGoalTop rules oracle g s).1 = true) :
    (backward_chain rules oracle [g] s).1.provedList
      = [(g, calculate_goal_confidence
          (proveGoalTop rules oracle g s).2.reasoningTrace g)] ∧
    (backward_chain rules oracle [g] s).1.finalTrace
      = (proveGoalTop rules oracle g s).2.reasoningTrace := by
  obtain ⟨hp1, hp2⟩ := backward_chain_proj rules oracle [g] s
  rw [hp1, hp2]
  show (bcChainStep rules oracle _ g).1.provedList = _
    ∧ (bcChainStep rules oracle _ g).2.reasoningTrace = _
  unfold bcChainStep
  rcases hpt : proveGoalTop rules oracle g s with ⟨b, st⟩
  rw [hpt] at h
  cases b
  · simp at h
  · exact ⟨rfl, rfl⟩

/-- Witness for C6: backward-proving the digitizer diagnosis via R6 alone
reports, by the theorem, a confidence equal to the single contributing CF,
0.88. -/
theorem C6_backward_confidence_min_witness :
    calculate_goal_confidence
      (proveGoalTop [("R6", ruleR6)] none "kerusakan_touchscreen_digitizer"
        (bcInit scenarioAFacts)).2.reasoningTrace
      "kerusakan_touchscreen_digitizer" = 0.88 := by
  have htrue : (proveGoalTop [("R6", ruleR6)] none
      "kerusakan_touchscreen_digitizer" (bcInit scenarioAFacts)).1 = true := by
    decide
  obtain ⟨hs1, hs2⟩ := backward_chain_single [("R6", ruleR6)] none
    "kerusakan_touchscreen_digitizer" (bcInit scenarioAFacts) htrue
  have hcf : ∀ p ∈ [("R6", ruleR6)], p.2.cf ≤ 1 := by
    intro p hp
    simp at hp
    rw [hp]
    norm_num [ruleR6]
  have hmem : ("kerusakan_touchscreen_digitizer",
      calculate_goal_confidence
        (proveGoalTop [("R6", ruleR6)] none "kerusakan_touchscreen_digitizer"
          (bcInit scenarioAFacts)).2.reasoningTrace
        "kerusakan_touchscreen_digitizer")
      ∈ (backward_chain [("R6", ruleR6)] none
          ["kerusakan_touchscreen_digitizer"]
          (bcInit scenarioAFacts)).1.provedList := by
    rw [hs1]
    exact List.mem_singleton_self _
  have hc : contribCfs
      (proveGoalTop [("R6", ruleR6)] none "kerusakan_touchscreen_digitizer"
        (bcInit scenarioAFacts)).2.reasoningTrace
      "kerusakan_touchscreen_digitizer" = [(0.88 : ℚ)] := rfl
  have hne : contribCfs
      (backward_chain [("R6", ruleR6)] none ["kerusakan_touchscreen_digitizer"]
        (bcInit scenarioAFacts)).1.finalTrace
      "kerusakan_touchscreen_digitizer" ≠ [] := by
    rw [hs2, hc]
    simp
  have h3 := (C6_backward_confidence_min [("R6", ruleR6)] none
    ["kerusakan_touchscreen_digitizer"] scenarioAFacts hcf
    "kerusakan_touchscreen_digitizer" _ hmem).2.2 hne
  rw [hs2, hc] at h3
  exact List.mem_singleton.mp h3

end SmartphoneES
